import Mathlib

/-!
Shallow embedding of the hybrid search fusion and reranking engine of
`server/utils/reranker` (files `index.js`, `providers/openai.js`,
`providers/cohere.js`, `providers/gemini.js`).

JavaScript numbers are modelled as rationals (`ℚ`); all arithmetic in the
source is exact on the inputs used here (sums and products of small decimal
fractions), so no floating-point rounding is observable in the claims under
study.  JavaScript strings are modelled as `String`; the inputs exercised are
ASCII, where JavaScript `toLowerCase`, `\w`, `\s` and Lean's `Char.toLower`,
`Char.isAlphanum`, `Char.isWhitespace` agree.  A missing / `undefined` /
`null` string field is modelled as `""` and a missing numeric field as `0`,
matching the way the source only ever consumes these fields through
JavaScript truthiness tests (`x || y`, `if (x)`).
-/

namespace ParalegalSearch

/-! ### Generic string helpers (JS `toLowerCase`, regex character classes) -/

/-- JS `\w` character class (ASCII word character). -/
def isWordCharB (c : Char) : Bool := c.isAlphanum || c == '_'

/-- JS `\s` character class (on the ASCII inputs used here). -/
def isSpaceB (c : Char) : Bool := c.isWhitespace

/-- JS `String.prototype.toLowerCase` (ASCII). -/
def lowerStr (s : String) : String := String.mk (s.toList.map Char.toLower)

/-- Split a character list into maximal non-whitespace runs
(JS `split(/\s+/)` with empty pieces dropped; the callers filter by length
afterwards, so dropped empties are unobservable). -/
def wordsGo : List Char → List Char → List String
  | [], acc => if acc.isEmpty then [] else [String.mk acc.reverse]
  | c :: rest, acc =>
    if isSpaceB c then
      if acc.isEmpty then wordsGo rest [] else String.mk acc.reverse :: wordsGo rest []
    else wordsGo rest (c :: acc)

def splitWs (l : List Char) : List String := wordsGo l []

/-- Boolean test: `needle` is a leading segment of `hay`. -/
def prefB : List Char → List Char → Bool
  | [], _ => true
  | _ :: _, [] => false
  | a :: as, b :: bs => a == b && prefB as bs

/-- Boolean test: `needle` occurs contiguously inside `hay`
(JS `String.prototype.includes`). -/
def infB (needle : List Char) : List Char → Bool
  | [] => needle.isEmpty
  | hay@(_ :: rest) => prefB needle hay || infB needle rest

/-- Case-insensitive `includes`: both sides are lowercased first. -/
def containsCI (hay needle : String) : Bool :=
  infB (lowerStr needle).toList (lowerStr hay).toList

/-- JS `Math.min(Math.max(x, 0), 1)`. -/
def clamp01 (x : ℚ) : ℚ := min (max x 0) 1

/-! ### `HybridReranker.tokenize` (index.js lines 420-426) -/

/-- `tokenize(text)`: lowercase, replace every non-word non-space character
with a space, split on whitespace, keep tokens longer than 2 characters. -/
def tokenize (text : String) : List String :=
  let replaced := (lowerStr text).toList.map
    (fun c => if isWordCharB c || isSpaceB c then c else ' ')
  (splitWs replaced).filter (fun t => 2 < t.length)

/-! ### Data model -/

/-- One Qdrant vector-search result as consumed by the fusion step
(`index.js` lines 187-201).  Only the fields the fusion code reads are
modelled; `metaTitle`/`metaCourt` stand for `result.metadata?.title` and
`result.metadata?.court`. -/
structure VectorResult where
  id : String := ""
  docId : String := ""
  score : ℚ := 0
  similarity : ℚ := 0
  title : String := ""
  text : String := ""
  metaTitle : String := ""
  metaCourt : String := ""
  deriving Repr, DecidableEq

/-- One PostgreSQL metadata-search row as consumed by the fusion step
(`index.js` lines 204-233 and 308-363).  `year = 0` models an absent/null
year (the source only tests `metadata.year` for truthiness). -/
structure MetaRecord where
  doc_id : String := ""
  title : String := ""
  citation : String := ""
  court : String := ""
  case_type : String := ""
  jurisdiction : String := ""
  keywords : String := ""
  year : ℕ := 0
  petitioner : String := ""
  respondent : String := ""
  deriving Repr, DecidableEq

inductive Source where
  | vector
  | metadata
  | hybrid
  deriving Repr, DecidableEq, Inhabited

/-- A fusion candidate: one value of the `documentMap` in
`HybridReranker.rerank`, together with the score fields attached in step 5. -/
structure Candidate where
  docId : String
  vectorScore : ℚ
  metadataScore : ℚ
  metadataMatch : Bool
  source : Source
  combinedScore : ℚ
  title : String
  text : String
  metaTitle : String
  metaCourt : String
  semanticScore : ℚ := 0
  hostedRerankerScore : ℚ := 0
  metadataRelevanceScore : ℚ := 0
  deriving Repr, DecidableEq, Inhabited

/-! ### `HybridReranker.calculateMetadataRelevance` (index.js lines 308-363) -/

/-- Searchable text: the six structured fields joined with spaces and
lowercased. -/
def searchableText (m : MetaRecord) : String :=
  lowerStr (String.intercalate " "
    [m.title, m.citation, m.court, m.case_type, m.jurisdiction, m.keywords])

/-- `calculateMetadataRelevance(metadata, queryTerms)`: base 0.5, plus up to
0.5 for query-term overlap, plus flat boosts for court (+0.15), year (+0.15),
case type (+0.1) and citation (+0.2) matches, capped at 1.0. -/
def calculateMetadataRelevance (m : MetaRecord) (queryTerms : List String) : ℚ :=
  let metadataTerms := tokenize (searchableText m)
  let matchCount : ℕ := (queryTerms.filter (fun t => metadataTerms.contains t)).length
  let score : ℚ := 1/2 +
    (if 0 < queryTerms.length then
      ((matchCount : ℚ) / (queryTerms.length : ℚ)) * (1/2) else 0)
  let score := score +
    (if m.court ≠ "" ∧ queryTerms.any (fun t => infB t.toList (lowerStr m.court).toList)
      then 3/20 else 0)
  let score := score +
    (if m.year ≠ 0 ∧ queryTerms.contains (toString m.year) then 3/20 else 0)
  let score := score +
    (if m.case_type ≠ "" ∧
        queryTerms.any (fun t => infB t.toList (lowerStr m.case_type).toList)
      then 1/10 else 0)
  let score := score +
    (if m.citation ≠ "" ∧
        queryTerms.any (fun t => infB t.toList (lowerStr m.citation).toList)
      then 1/5 else 0)
  min score 1

/-! ### `HybridReranker.formatMetadataAsText` (index.js lines 431-444) -/

def formatMetadataAsText (m : MetaRecord) : String :=
  String.intercalate "\n" (List.filterMap id
    [ if m.title ≠ "" then some ("Title: " ++ m.title) else none,
      if m.citation ≠ "" then some ("Citation: " ++ m.citation) else none,
      if m.court ≠ "" then some ("Court: " ++ m.court) else none,
      if m.year ≠ 0 then some ("Year: " ++ toString m.year) else none,
      if m.case_type ≠ "" then some ("Type: " ++ m.case_type) else none,
      if m.petitioner ≠ "" then some ("Petitioner: " ++ m.petitioner) else none,
      if m.respondent ≠ "" then some ("Respondent: " ++ m.respondent) else none,
      if m.keywords ≠ "" then some ("Keywords: " ++ m.keywords) else none ])

/-! ### Insertion-ordered map keyed by document id

`documentMap` in the source is a JS `Map`.  `Map.set` on an existing key
replaces the value in place (keeping the key's position); on a new key it
appends.  Iteration order is insertion order.  We model it as an association
list with exactly those operations. -/

abbrev DocMap := List (String × Candidate)

def hasKey (m : DocMap) (k : String) : Bool := m.any (fun p => p.1 == k)

def alookup (m : DocMap) (k : String) : Option Candidate :=
  (m.find? (fun p => p.1 == k)).map Prod.snd

/-- JS `Map.set`: replace in place if the key exists, else append. -/
def mapSet (m : DocMap) (k : String) (v : Candidate) : DocMap :=
  if hasKey m k then m.map (fun p => if p.1 == k then (k, v) else p)
  else m ++ [(k, v)]

/-- In-place mutation of the value stored at key `k` (JS
`documentMap.get(docId)` followed by field assignments). -/
def mapUpdate (m : DocMap) (k : String) (f : Candidate → Candidate) : DocMap :=
  m.map (fun p => if p.1 == k then (p.1, f p.2) else p)

/-! ### Merge steps of `HybridReranker.rerank` (index.js lines 182-233) -/

/-- `result.id || result.docId` (step 2). -/
def vidOf (r : VectorResult) : String := if r.id ≠ "" then r.id else r.docId

/-- `result.score || result.similarity || 0` (step 2). -/
def baseScoreOf (r : VectorResult) : ℚ := if r.score ≠ 0 then r.score else r.similarity

/-- The candidate inserted for a vector result (step 2). -/
def vecCandidate (r : VectorResult) : Candidate :=
  { docId := vidOf r
    vectorScore := baseScoreOf r
    metadataScore := 0
    metadataMatch := false
    source := Source.vector
    combinedScore := 0
    title := r.title
    text := r.text
    metaTitle := r.metaTitle
    metaCourt := r.metaCourt }

/-- Step 2: insert every vector result with a truthy id, keyed by
`result.id || result.docId`. -/
def vecPhase (vs : List VectorResult) : DocMap :=
  vs.foldl (fun m r => if vidOf r = "" then m else mapSet m (vidOf r) (vecCandidate r)) []

/-- The candidate inserted for a metadata-only result (step 3, else-branch). -/
def metaCandidate (r : MetaRecord) (rel : ℚ) : Candidate :=
  { docId := r.doc_id
    vectorScore := 0
    metadataScore := rel
    metadataMatch := true
    source := Source.metadata
    combinedScore := 0
    text := formatMetadataAsText r
    title := if r.title ≠ "" then r.title else "Untitled"
    metaTitle := r.title
    metaCourt := r.court }

/-- Step 3, then-branch: the in-place update applied when the id is already
present (`existing.metadataScore/metadataMatch/metadata/source`).  The spread
`{...existing.metadata, ...result}` overwrites the metadata object's title and
court with the row's columns. -/
def hybridUpdate (r : MetaRecord) (rel : ℚ) (c : Candidate) : Candidate :=
  { c with metadataScore := rel
           metadataMatch := true
           metaTitle := r.title
           metaCourt := r.court
           source := Source.hybrid }

/-- Step 3: process the metadata results against the map built in step 2.
The relevance is computed once per record in the source (before the branch);
`calculateMetadataRelevance` is pure, so inlining it in both branches is
observationally identical. -/
def metaPhase (m0 : DocMap) (ms : List MetaRecord) (queryTerms : List String) : DocMap :=
  ms.foldl (fun m r =>
    if r.doc_id = "" then m
    else if hasKey m r.doc_id then
      mapUpdate m r.doc_id (hybridUpdate r (calculateMetadataRelevance r queryTerms))
    else m ++ [(r.doc_id, metaCandidate r (calculateMetadataRelevance r queryTerms))]) m0

/-- The `documentMap` after steps 1-3 of `HybridReranker.rerank`. -/
def documentMap (vs : List VectorResult) (ms : List MetaRecord) (query : String) : DocMap :=
  metaPhase (vecPhase vs) ms (tokenize (lowerStr query))

/-! ### `HybridReranker.normalizeTitle` (index.js lines 408-415) -/

/-- Collapse each maximal whitespace run to a single space
(JS `replace(/\s+/g, ' ')`).  The flag records whether the previous kept
character was part of a whitespace run. -/
def collapseWsGo : Bool → List Char → List Char
  | _, [] => []
  | prevWs, c :: rest =>
    if isSpaceB c then
      if prevWs then collapseWsGo true rest else ' ' :: collapseWsGo true rest
    else c :: collapseWsGo false rest

/-- JS `String.prototype.trim` on ASCII input. -/
def trimWs (l : List Char) : List Char :=
  ((l.dropWhile isSpaceB).reverse.dropWhile isSpaceB).reverse

/-- `normalizeTitle(title)`: lowercase, delete non-word non-space characters,
collapse whitespace, trim, truncate to 50 characters. -/
def normalizeTitle (t : String) : String :=
  let l1 := (t.toList.map Char.toLower).filter (fun c => isWordCharB c || isSpaceB c)
  String.mk ((trimWs (collapseWsGo false l1)).take 50)

/-! ### Stable descending sort by `combinedScore`

The source sorts with `(a, b) => b.combinedScore - a.combinedScore` under
V8's stable sort; a stable descending sort's output is uniquely determined,
so Mathlib's stable `insertionSort` with the same key produces the same
list. -/

def scoreGE (a b : Candidate) : Prop := b.combinedScore ≤ a.combinedScore

instance : DecidableRel scoreGE := fun a b => inferInstanceAs (Decidable (_ ≤ _))

instance : IsTotal Candidate scoreGE := ⟨fun a b => le_total b.combinedScore a.combinedScore⟩

instance : IsTrans Candidate scoreGE :=
  ⟨fun _ _ _ h h' => le_trans h' h⟩

def sortByCombinedDesc (l : List Candidate) : List Candidate := l.insertionSort scoreGE

/-! ### `HybridReranker.applyDiversity` (index.js lines 368-403) -/

/-- `result.title || result.metadata?.title || ''`. -/
def divTitle (c : Candidate) : String := if c.title ≠ "" then c.title else c.metaTitle

/-- The `diversityPenalty` accumulated for one candidate (index.js lines
379-389): `diversityFactor` when the normalized title was already seen, plus
`diversityFactor * 0.5` when the court was already seen. -/
def divPen (df : ℚ) (seenT seenC : List String) (r : Candidate) : ℚ :=
  (if divTitle r ≠ "" ∧ seenT.contains (normalizeTitle (divTitle r)) then df else 0) +
  (if r.metaCourt ≠ "" ∧ seenC.contains r.metaCourt then df * (1/2) else 0)

/-- The penalising loop body of `applyDiversity`: walk the candidates in
order keeping the set of already-seen normalized titles and courts,
subtracting the penalty floored at 0, then recording this candidate's
normalized title and court as seen. -/
def divGo (df : ℚ) : List Candidate → List String → List String → List Candidate
  | [], _, _ => []
  | r :: rest, seenT, seenC =>
    { r with combinedScore := max 0 (r.combinedScore - divPen df seenT seenC r) } ::
    divGo df rest
      (if divTitle r ≠ "" then normalizeTitle (divTitle r) :: seenT else seenT)
      (if r.metaCourt ≠ "" then r.metaCourt :: seenC else seenC)

/-- `applyDiversity(results, diversityFactor)`: early return when the factor
is non-positive or fewer than two results; otherwise penalise then re-sort. -/
def applyDiversity (results : List Candidate) (df : ℚ) : List Candidate :=
  if df ≤ 0 ∨ results.length ≤ 1 then results
  else sortByCombinedDesc (divGo df results [] [])

/-! ### `HybridReranker.rerank` — fusion (index.js lines 171-303)

The hosted-reranker score map built in step 4 is threaded in as the
`rerankerScores` association list: when no provider is configured (or
`useHostedReranker` is false, or the service call fails) step 4 leaves the
map empty, which corresponds to passing `[]`. -/

/-- The option object destructured at the top of `HybridReranker.rerank`,
with the source's default values (index.js lines 172-179). -/
structure RerankOptions where
  semanticWeight : ℚ := 7/10
  rerankerWeight : ℚ := 1/5
  metadataWeight : ℚ := 1/10
  maxResults : ℕ := 10
  diversityFactor : ℚ := 1/10
  deriving Repr, DecidableEq

/-- `rerankerScores.get(docId) || 0.5` (step 5). -/
def hostedScoreFor (rs : List (String × ℚ)) (k : String) : ℚ :=
  match (rs.find? (fun p => p.1 == k)).map Prod.snd with
  | some s => if s = 0 then 1/2 else s
  | none => 1/2

/-- Step 5: weighted combination, metadata-imbalance multiplier, cap at 1,
and attachment of the per-source score fields. -/
def scoreCandidate (opts : RerankOptions) (rs : List (String × ℚ))
    (vlen mlen : ℕ) (p : String × Candidate) : Candidate :=
  let doc := p.2
  let semanticScore := clamp01 doc.vectorScore
  let metadataScore := clamp01 doc.metadataScore
  let hosted := hostedScoreFor rs p.1
  let combined :=
    semanticScore * opts.semanticWeight +
    hosted * opts.rerankerWeight +
    metadataScore * opts.metadataWeight
  let combined :=
    if doc.source = Source.metadata ∧ vlen < mlen
    then combined * (1 - opts.diversityFactor) else combined
  { doc with
      combinedScore := min combined 1
      semanticScore := semanticScore
      hostedRerankerScore := hosted
      metadataRelevanceScore := metadataScore }

/-- Steps 5-8 of `HybridReranker.rerank` applied to the merged map:
score, sort descending, diversity pass, truncate to `maxResults`. -/
def fuse (vs : List VectorResult) (ms : List MetaRecord) (query : String)
    (opts : RerankOptions) (rs : List (String × ℚ)) : List Candidate :=
  let scored := (documentMap vs ms query).map
    (scoreCandidate opts rs vs.length ms.length)
  (applyDiversity (sortByCombinedDesc scored) opts.diversityFactor).take opts.maxResults

/-! ### Reranker providers (`providers/openai.js`, `providers/cohere.js`,
`providers/gemini.js`)

Documents are modelled generically (type `α`): the source spreads the input
document and attaches a `rerankerScore`, so an output entry is a pair
`α × ℚ`.  Each provider builds a prompt / request from the documents, sends
it to the network and parses the response; the network round trip is not a
function of the inputs, so the *parsed response* is threaded in as an
explicit argument: `.error` models a thrown `fetch`, a rejected promise or a
non-ok HTTP status (everything the surrounding `try` catches). -/

section Providers

variable {α : Type}

/-- Relation used by `rankedDocs.sort((a, b) => b.rerankerScore - a.rerankerScore)`:
stable descending sort on the attached score. -/
def pairGE (a b : α × ℚ) : Prop := b.2 ≤ a.2

instance : DecidableRel (@pairGE α) :=
  fun a b => inferInstanceAs (Decidable (_ ≤ _))

instance : IsTotal (α × ℚ) pairGE := ⟨fun a b => le_total b.2 a.2⟩

instance : IsTrans (α × ℚ) pairGE := ⟨fun _ _ _ h h' => le_trans h' h⟩

def sortByScoreDesc (l : List (α × ℚ)) : List (α × ℚ) := l.insertionSort pairGE

/-- `scores[idx] || 0.5`: a score of exactly 0 is falsy and replaced by the
neutral 0.5. -/
def attachScore (p : α × ℚ) : α × ℚ := (p.1, if p.2 = 0 then 1/2 else p.2)

/-- `OpenAIReranker.parseScores(content, expectedCount)` (openai.js lines
120-139).  The argument models the parsed response content: `none` when
`JSON.parse` throws or the object has no `scores` array; `some raw` gives the
`parseFloat` of each array element, `none` standing for a NaN entry (dropped
by the filter). -/
def openaiParseScores (parsed : Option (List (Option ℚ))) (expected : ℕ) : List ℚ :=
  match parsed with
  | some raw =>
    let s := raw.filterMap id
    if s.length = expected then s.map clamp01 else List.replicate expected (1/2)
  | none => List.replicate expected (1/2)

/-- `OpenAIReranker.rerank(query, documents)` (openai.js lines 22-74):
empty input short-circuits to `[]`; a caught error yields uniform 0.5;
otherwise parse, attach `scores[idx] || 0.5`, and sort by score descending.
The query only influences the outgoing prompt, hence is not a parameter. -/
def openaiRerank (docs : List α)
    (outcome : Except Unit (Option (List (Option ℚ)))) : List (α × ℚ) :=
  if docs.isEmpty then []
  else
    match outcome with
    | .error _ => docs.map (fun d => (d, 1/2))
    | .ok parsed =>
      let scores := openaiParseScores parsed docs.length
      sortByScoreDesc ((docs.zip scores).map attachScore)

/-- `GeminiReranker.parseScores(text, expectedCount)` (gemini.js lines
95-125).  `bracket` models the comma-split `parseFloat`s of the first
`/\[([\d\s.,]+)\]/` capture (`none` when the regex does not match, entry
`none` for NaN); `numbers` models the `/\d+\.\d+/g` matches parsed as
rationals (`none` when there are none). -/
def geminiFallback (numbers : Option (List ℚ)) (expected : ℕ) : List ℚ :=
  match numbers with
  | some ns =>
    if expected ≤ ns.length then (ns.take expected).map clamp01
    else List.replicate expected (1/2)
  | none => List.replicate expected (1/2)

def geminiParseScores (bracket : Option (List (Option ℚ)))
    (numbers : Option (List ℚ)) (expected : ℕ) : List ℚ :=
  match bracket with
  | some raw =>
    let s := raw.filterMap id
    if s.length = expected then s.map clamp01 else geminiFallback numbers expected
  | none => geminiFallback numbers expected

/-- `GeminiReranker.rerank` (gemini.js lines 24-61): same shape as the OpenAI
provider with the two-tier Gemini parser. -/
def geminiRerank (docs : List α)
    (outcome : Except Unit (Option (List (Option ℚ)) × Option (List ℚ))) :
    List (α × ℚ) :=
  if docs.isEmpty then []
  else
    match outcome with
    | .error _ => docs.map (fun d => (d, 1/2))
    | .ok parsed =>
      let scores := geminiParseScores parsed.1 parsed.2 docs.length
      sortByScoreDesc ((docs.zip scores).map attachScore)

/-- `data.results?.find(r => r.index === idx)?.relevance_score || 0.5`
(cohere.js lines 60-66).  A result row is `(index, relevance_score?)`; a
missing row, a missing score and a score of exactly 0 all fall back to 0.5.
Note the relevance score is passed through without clamping. -/
def cohereScoreFor (results : List (ℕ × Option ℚ)) (idx : ℕ) : ℚ :=
  match results.find? (fun r => r.1 == idx) with
  | some (_, some s) => if s = 0 then 1/2 else s
  | some (_, none) => 1/2
  | none => 1/2

/-- `CohereReranker.rerank` (cohere.js lines 22-78). -/
def cohereRerank (docs : List α)
    (outcome : Except Unit (List (ℕ × Option ℚ))) : List (α × ℚ) :=
  if docs.isEmpty then []
  else
    match outcome with
    | .error _ => docs.map (fun d => (d, 1/2))
    | .ok results =>
      sortByScoreDesc (docs.enum.map (fun p => (p.2, cohereScoreFor results p.1)))

/-- Chunking loop `for (let i = 0; i < documents.length; i += batchSize)`
with `documents.slice(i, i + batchSize)`.  The fuel argument (initialised to
the list length) only bounds the recursion; with a positive chunk size each
step consumes at least one element, so the fuel never runs out. -/
def chunksGo (n : ℕ) : ℕ → List α → List (List α)
  | 0, _ => []
  | _, [] => []
  | fuel + 1, l => l.take n :: chunksGo n fuel (l.drop n)

def chunkList (n : ℕ) (l : List α) : List (List α) := chunksGo n l.length l

/-- `OpenAIReranker.rerankBatch(query, documents, batchSize = 10)` (openai.js
lines 144-159): score each chunk sequentially and concatenate.  `outcomes i`
is the parsed response of the `i`-th sequential call; the fixed 100 ms
inter-batch delay has no effect on the computed value and is not modelled. -/
def openaiRerankBatch (docs : List α)
    (outcomes : ℕ → Except Unit (Option (List (Option ℚ))))
    (batchSize : ℕ := 10) : List (α × ℚ) :=
  ((chunkList batchSize docs).enum).flatMap (fun p => openaiRerank p.2 (outcomes p.1))

/-- `GeminiReranker.rerankBatch(query, documents, batchSize = 10)` (gemini.js
lines 130-145). -/
def geminiRerankBatch (docs : List α)
    (outcomes : ℕ → Except Unit (Option (List (Option ℚ)) × Option (List ℚ)))
    (batchSize : ℕ := 10) : List (α × ℚ) :=
  ((chunkList batchSize docs).enum).flatMap (fun p => geminiRerank p.2 (outcomes p.1))

/-- `CohereReranker.rerankBatch(query, documents, batchSize = 100)`
(cohere.js lines 83-99). -/
def cohereRerankBatch (docs : List α)
    (outcomes : ℕ → Except Unit (List (ℕ × Option ℚ)))
    (batchSize : ℕ := 100) : List (α × ℚ) :=
  ((chunkList batchSize docs).enum).flatMap (fun p => cohereRerank p.2 (outcomes p.1))

end Providers

/-! ### `RerankerService` (index.js lines 10-152) -/

/-- The environment variables read by `RerankerService.initialize`; `none`
models an unset variable. -/
structure RerankerEnv where
  RERANKER_PROVIDER : Option String := none
  RERANKER_ENABLED : Option String := none
  RERANKER_API_KEY : Option String := none
  GEMINI_API_KEY : Option String := none
  OPEN_AI_KEY : Option String := none
  RERANKER_MODEL : Option String := none
  GEMINI_LLM_MODEL_PREF : Option String := none
  deriving Repr, DecidableEq

/-- JS truthiness of a possibly-unset string: unset and `""` are falsy. -/
def truthyStr : Option String → Option String
  | some s => if s = "" then none else some s
  | none => none

/-- JS `a || b` on possibly-unset strings. -/
def jsOr (a b : Option String) : Option String :=
  match truthyStr a with
  | some s => some s
  | none => truthyStr b

/-- A constructed provider instance (the `this.provider` field). -/
inductive ProviderConfig where
  | gemini (key model : String)
  | cohere (key model : String)
  | openai (key model : String)
  deriving Repr, DecidableEq

/-- `RerankerService.initialize` (index.js lines 19-79): the provider left in
`this.provider` after the one-time initialisation.  `none` covers: reranking
disabled, unknown/unset provider selector, and a missing API key (the thrown
error is caught at line 74 and resets the provider to `null`). -/
def initProvider (env : RerankerEnv) : Option ProviderConfig :=
  if env.RERANKER_ENABLED ≠ some "true" then none
  else
    match env.RERANKER_PROVIDER.map lowerStr with
    | some "gemini" =>
      match jsOr env.RERANKER_API_KEY env.GEMINI_API_KEY with
      | some k => some (ProviderConfig.gemini k
          ((jsOr env.RERANKER_MODEL env.GEMINI_LLM_MODEL_PREF).getD "gemini-2.0-flash-lite"))
      | none => none
    | some "cohere" =>
      match truthyStr env.RERANKER_API_KEY with
      | some k => some (ProviderConfig.cohere k
          ((truthyStr env.RERANKER_MODEL).getD "rerank-english-v3.0"))
      | none => none
    | some "openai" =>
      match jsOr env.RERANKER_API_KEY env.OPEN_AI_KEY with
      | some k => some (ProviderConfig.openai k
          ((truthyStr env.RERANKER_MODEL).getD "gpt-4o-mini"))
      | none => none
    | _ => none

/-- `RerankerService.isAvailable` (index.js lines 84-87). -/
def isAvailable (env : RerankerEnv) : Bool := (initProvider env).isSome

/-- `RerankerService.rerank(query, documents)` (index.js lines 95-111): with
no provider, annotate every document with the neutral 0.5; with a provider,
delegate, and a thrown provider error degrades to the same neutral
annotation.  `run` models `await this.provider.rerank(query, documents)`. -/
def serviceRerank {α : Type} (env : RerankerEnv)
    (run : ProviderConfig → List α → Except Unit (List (α × ℚ)))
    (docs : List α) : List (α × ℚ) :=
  match initProvider env with
  | none => docs.map (fun d => (d, 1/2))
  | some p =>
    match run p docs with
    | .ok out => out
    | .error _ => docs.map (fun d => (d, 1/2))

/-- `RerankerService.rerankBatch` (index.js lines 116-132): identical
degradation shape (all three providers implement `rerankBatch`, so the
delegation branch always calls it). -/
def serviceRerankBatch {α : Type} (env : RerankerEnv)
    (runBatch : ProviderConfig → List α → Except Unit (List (α × ℚ)))
    (docs : List α) : List (α × ℚ) :=
  match initProvider env with
  | none => docs.map (fun d => (d, 1/2))
  | some p =>
    match runBatch p docs with
    | .ok out => out
    | .error _ => docs.map (fun d => (d, 1/2))

/-! ### `HybridSearchManager.extractFiltersFromQuery` (index.js lines 642-713)

The regular expressions in the source are literal-substring or
word-boundary patterns; they are modelled by direct character scans with
JavaScript regex semantics (leftmost match, case-insensitive where the `i`
flag is present, `\b` = word/non-word boundary, `\w` = ASCII word
character). -/

def lowerChars (l : List Char) : List Char := l.map Char.toLower

/-- Case-insensitive prefix test; `pat` is already lowercase. -/
def prefCI : List Char → List Char → Bool
  | [], _ => true
  | _ :: _, [] => false
  | a :: as, b :: bs => a == b.toLower && prefCI as bs

/-- Word-boundary test for the character preceding a match. -/
def boundaryL : Option Char → Bool
  | some p => !isWordCharB p
  | none => true

/-- Word-boundary test for the characters following a match. -/
def boundaryR : List Char → Bool
  | [] => true
  | c :: _ => !isWordCharB c

/-- Attempt of `/\b(19\d{2}|20\d{2})\b/` at one position (`prev` is the
preceding character, if any). -/
def yearAtB (prev : Option Char) (l : List Char) : Option (List Char) :=
  match l with
  | a :: b :: c :: d :: rest =>
    if boundaryL prev && ((a == '1' && b == '9') || (a == '2' && b == '0')) &&
        c.isDigit && d.isDigit && boundaryR rest
    then some [a, b, c, d] else none
  | _ => none

/-- Leftmost match of the year pattern. -/
def findYearGo : Option Char → List Char → Option (List Char)
  | _, [] => none
  | prev, l@(x :: rest) =>
    match yearAtB prev l with
    | some ds => some ds
    | none => findYearGo (some x) rest

def digitsToNat (ds : List Char) : ℕ :=
  ds.foldl (fun n c => 10 * n + (c.toNat - '0'.toNat)) 0

/-- `query.match(/\b(19\d{2}|20\d{2})\b/)` then `parseInt(yearMatch[1])`. -/
def yearOf (q : List Char) : Option ℕ := (findYearGo none q).map digitsToNat

/-- Attempt of `/high court of ([a-z\s]+)/i` at one position: the 14-char
literal prefix, then a non-empty greedy run of letters and whitespace;
`match[0]` is the original-case text of the whole match. -/
def hcAt (l : List Char) : Option (List Char) :=
  if prefCI "high court of ".toList l then
    let run := (l.drop 14).takeWhile (fun c => c.isAlpha || isSpaceB c)
    if run.isEmpty then none else some (l.take 14 ++ run)
  else none

def hcScan : List Char → Option (List Char)
  | [] => none
  | l@(_ :: rest) =>
    match hcAt l with
    | some m => some m
    | none => hcScan rest

/-- The ordered `courtPatterns` list (index.js lines 653-660); each entry
maps the query to `value || match[0]` when its pattern matches. -/
def courtMatchers : List (List Char → Option String) :=
  [ fun q => if infB "supreme court".toList (lowerChars q)
      then some "Supreme Court of India" else none,
    fun q => (hcScan q).map String.mk,
    fun q => if infB "delhi high court".toList (lowerChars q)
      then some "High Court of Delhi" else none,
    fun q => if infB "bombay high court".toList (lowerChars q)
      then some "High Court of Bombay" else none,
    fun q => if infB "calcutta high court".toList (lowerChars q)
      then some "High Court of Calcutta" else none,
    fun q => if infB "madras high court".toList (lowerChars q)
      then some "High Court of Madras" else none ]

/-- The `for ... break` loop over `courtPatterns`. -/
def courtOf (q : List Char) : Option String := courtMatchers.findSome? (fun f => f q)

/-- Word-bounded case-insensitive occurrence (`/\bpil\b/i`); `w` is
lowercase and consists of word characters. -/
def wordBoundedGo (w : List Char) : Option Char → List Char → Bool
  | _, [] => false
  | prev, l@(x :: rest) =>
    (boundaryL prev && prefCI w l && boundaryR (l.drop w.length)) ||
      wordBoundedGo w (some x) rest

def wordBounded (w : List Char) (q : List Char) : Bool := wordBoundedGo w none q

/-- The ordered `caseTypePatterns` list (index.js lines 671-678) as
(test, value) pairs. -/
def caseTypeMatchers : List ((List Char → Bool) × String) :=
  [ (fun q => infB "criminal appeal".toList (lowerChars q), "Criminal Appeal"),
    (fun q => infB "civil appeal".toList (lowerChars q), "Civil Appeal"),
    (fun q => infB "writ petition".toList (lowerChars q), "Writ Petition"),
    (fun q => infB "special leave petition".toList (lowerChars q) ||
        infB "slp".toList (lowerChars q), "Special Leave Petition"),
    (fun q => wordBounded "pil".toList q ||
        infB "public interest litigation".toList (lowerChars q), "PIL"),
    (fun q => infB "bail".toList (lowerChars q), "Bail Application") ]

/-- The `for ... break` loop over `caseTypePatterns`. -/
def caseTypeOf (q : List Char) : Option String :=
  caseTypeMatchers.findSome? (fun p => if p.1 q then some p.2 else none)

/-- `/criminal/i` then `/civil/i` (index.js lines 688-692). -/
def jurisdictionOf (q : List Char) : Option String :=
  if infB "criminal".toList (lowerChars q) then some "Criminal"
  else if infB "civil".toList (lowerChars q) then some "Civil"
  else none

/-- `/constitution bench/i` then `/division bench/i` (index.js lines 695-699). -/
def benchOf (q : List Char) : Option String :=
  if infB "constitution bench".toList (lowerChars q) then some "Constitution Bench"
  else if infB "division bench".toList (lowerChars q) then some "Division Bench"
  else none

/-- JS `str.replace(pat, '')` with a plain string pattern: remove the first
occurrence only. -/
def removeFirst (pat : List Char) : List Char → List Char
  | [] => []
  | hay@(c :: rest) =>
    if pat ≠ [] && prefB pat hay then hay.drop pat.length
    else c :: removeFirst pat rest

/-- JS `str.replace(new RegExp(value, 'gi'), '')` for a metacharacter-free
`value`: remove every case-insensitive occurrence, scanning left to right
without overlap.  Fuel (initialised to the text length) bounds the
recursion; every step consumes at least one character. -/
def removeAllCIGo (pat : List Char) : ℕ → List Char → List Char
  | 0, hay => hay
  | _, [] => []
  | fuel + 1, hay@(c :: rest) =>
    if pat ≠ [] && prefCI pat hay then removeAllCIGo pat fuel (hay.drop pat.length)
    else c :: removeAllCIGo pat fuel rest

def removeAllCI (pat hay : List Char) : List Char :=
  removeAllCIGo (lowerChars pat) hay.length hay

/-- The filter object produced by `extractFiltersFromQuery` and consumed by
`performMetadataSearch`; `none` models an absent key. -/
structure FilterSet where
  year : Option ℕ := none
  court : Option String := none
  case_type : Option String := none
  jurisdiction : Option String := none
  bench_type : Option String := none
  fulltext : Option String := none
  judge : Option String := none
  citation : Option String := none
  keywords : Option String := none
  deriving Repr, DecidableEq

/-- The cleanup step (index.js lines 702-707): remove the first occurrence
of the year's digits, then every case-insensitive occurrence of the court
value, then of the case-type value, then trim. -/
def cleanedOf (q : List Char) (year : Option ℕ) (court ct : Option String) : List Char :=
  let c1 := match year with
    | some y => removeFirst (toString y).toList q
    | none => q
  let c2 := match court with
    | some v => removeAllCI v.toList c1
    | none => c1
  let c3 := match ct with
    | some v => removeAllCI v.toList c2
    | none => c2
  trimWs c3

/-- `HybridSearchManager.extractFiltersFromQuery(query)` (index.js lines
642-713).  Pure and deterministic by construction. -/
def extractFiltersFromQuery (query : String) : FilterSet :=
  let q := query.toList
  let year := yearOf q
  let court := courtOf q
  let case_type := caseTypeOf q
  let cleaned := cleanedOf q year court case_type
  { year := year
    court := court
    case_type := case_type
    jurisdiction := jurisdictionOf q
    bench_type := benchOf q
    fulltext := if 5 < cleaned.length then some (String.mk cleaned) else none }

/-! ### `HybridSearchManager.search` (index.js lines 486-571)

The two source clients and the enrichment store are external collaborators;
their behaviours (results or a thrown error) are inputs of the model.  Every
`catch` in `performVectorSearch`, `performMetadataSearch` and
`enrichResultsWithMetadata` maps a failure to an empty/unchanged value, so
`search` is a total function of these inputs. -/

/-- `Object.keys(filters).length === 0`. -/
def filtersEmpty (f : FilterSet) : Bool := f == ({} : FilterSet)

structure SearchInputs where
  query : String := ""
  topN : ℕ := 10
  filters : FilterSet := {}
  vectorAvailable : Bool := true
  vectorOutcome : Except Unit (Option (List VectorResult)) := Except.ok (some [])
  metadataOutcome : Except Unit (List MetaRecord) := Except.ok []
  rerankerScores : List (String × ℚ) := []
  enrichStore : List (String × MetaRecord) := []

/-- `HybridSearchManager.performVectorSearch` (index.js lines 576-606):
missing client or thrown search → `[]`; otherwise `results?.sources || []`. -/
def performVectorSearch (inp : SearchInputs) : List VectorResult :=
  if !inp.vectorAvailable then []
  else
    match inp.vectorOutcome with
    | Except.ok (some rs) => rs
    | Except.ok none => []
    | Except.error _ => []

/-- `HybridSearchManager.performMetadataSearch` (index.js lines 611-637):
thrown search → `[]`. -/
def performMetadataSearch (inp : SearchInputs) : List MetaRecord :=
  match inp.metadataOutcome with
  | Except.ok rs => rs
  | Except.error _ => []

/-- The explicit options object `search` passes to `HybridReranker.rerank`
(index.js lines 536-544), with no caller overrides. -/
def searchOpts (topN : ℕ) : RerankOptions :=
  { semanticWeight := 3/5
    rerankerWeight := 3/10
    metadataWeight := 1/10
    maxResults := topN
    diversityFactor := 1/10 }

/-- `HybridSearchManager.enrichResultsWithMetadata` (index.js lines
718-759): best-effort per-id lookup, merging the structured court into the
candidate's display metadata; failed or missing lookups leave the candidate
unchanged. -/
def enrichResults (results : List Candidate)
    (store : List (String × MetaRecord)) : List Candidate :=
  results.map (fun r =>
    if r.docId = "" then r
    else
      match (store.find? (fun p => p.1 == r.docId)).map Prod.snd with
      | some md => { r with metaCourt := md.court }
      | none => r)

/-- `HybridSearchManager.search` (index.js lines 486-571): derive filters
when none are given, run both sources (metadata only when some filter is
set), fuse, enrich. -/
def search (inp : SearchInputs) : List Candidate :=
  let enhanced :=
    if filtersEmpty inp.filters then extractFiltersFromQuery inp.query else inp.filters
  let vr := performVectorSearch inp
  let mr := if !filtersEmpty enhanced then performMetadataSearch inp else []
  enrichResults (fuse vr mr inp.query (searchOpts inp.topN) inp.rerankerScores)
    inp.enrichStore

/-! ## Claims -/

/-! ### Claim C1 — metadata-only scenario -/

/-- The metadata record of the C1 scenario.  The spec writes its document id
as `docId`; the metadata-search rows are keyed by their `doc_id` column
(index.js line 205), which is the field the scenario populates. -/
def c1Record : MetaRecord :=
  { doc_id := "d1", court := "Supreme Court of India", year := 2024, title := "A v. B" }

def c1Query : String := "Supreme Court 2024 A v B"

/-- Claim C1 is false as stated: in the metadata-only scenario with default
options and no reranker provider, the returned candidate's combined score is
9/50 = 0.18, not `0.6*0 + 0.3*0.5 + 0.1*metadataScore = 0.25` — the
defaults of `HybridReranker.rerank` are semantic 0.7 / reranker 0.2 /
metadata 0.1, and the metadata-imbalance multiplier `(1 - diversityFactor)`
applies because the metadata source returned more candidates (1) than the
vector source (0). -/
theorem C1_counterexample :
    (fuse [] [c1Record] c1Query {} []).map
      (fun c => (c.source, c.vectorScore, c.hostedRerankerScore,
        c.metadataRelevanceScore, c.combinedScore)) =
      [(Source.metadata, 0, 1/2, 1, 9/50)] ∧
    (9/50 : ℚ) ≠ 6/10 * 0 + 3/10 * (1/2) + 1/10 * 1 := by
  with_unfolding_all decide

/-- Claim C1 (amended): the metadata-only scenario with `fuse`'s own default
options (semantic 0.7, reranker 0.2, metadata 0.1, diversityFactor 0.1) and
no reranker provider (empty score map) returns exactly one candidate with
source `metadata`, vector score 0, hosted reranker score 0.5, metadata score
1 (which is at least 0.5 + 0.15 + 0.15 and capped at 1.0), and combined
score `(0.7*0 + 0.2*0.5 + 0.1*metadataScore) * (1 - 0.1)`. -/
theorem C1_amended :
    (fuse [] [c1Record] c1Query {} []).map
      (fun c => (c.source, c.vectorScore, c.hostedRerankerScore,
        c.metadataRelevanceScore, c.combinedScore)) =
      [(Source.metadata, 0, 1/2, 1,
        (7/10 * 0 + 1/5 * (1/2) + 1/10 * 1) * (1 - 1/10))] ∧
    (fuse [] [c1Record] c1Query {} []).map
      (fun c => decide (1/2 + 3/20 + 3/20 ≤ c.metadataRelevanceScore ∧
        c.metadataRelevanceScore ≤ 1)) = [true] := by
  with_unfolding_all decide

/-! ### Claim C2 — combined score bounds -/

/-- Claim C2 is false as stated: `fuse` clamps the combined score from above
(`Math.min(combinedScore, 1)`) but not from below, so an options value with
a negative weight drives the combined score below 0.  With
`semanticWeight = -1` and a single full-similarity vector candidate the
returned combined score is `-1*1 + 0.2*0.5 + 0.1*0 = -0.9 < 0`. -/
theorem C2_counterexample :
    (fuse [{ id := "d1", score := 1 }] [] "" { semanticWeight := -1 } []).map
      (fun c => c.combinedScore) = [-9/10] ∧ ¬ (0 ≤ (-9/10 : ℚ)) := by
  with_unfolding_all decide

/-! #### Per-element characterisation of the diversity pass (for C4) -/

theorem contains_iff_mem_str (l : List String) (x : String) :
    l.contains x = true ↔ x ∈ l := by
  simp [List.contains, List.elem_iff]

/-- Normalized titles of the candidates strictly before position `i`
(only non-empty diversity titles are recorded as seen). -/
def titlesBefore (l : List Candidate) (i : ℕ) : List String :=
  (l.take i).filterMap
    (fun c => if divTitle c ≠ "" then some (normalizeTitle (divTitle c)) else none)

/-- Courts of the candidates strictly before position `i`. -/
def courtsBefore (l : List Candidate) (i : ℕ) : List String :=
  (l.take i).filterMap (fun c => if c.metaCourt ≠ "" then some c.metaCourt else none)

theorem divGo_length (df : ℚ) :
    ∀ (l : List Candidate) (seenT seenC : List String),
      (divGo df l seenT seenC).length = l.length := by
  intro l
  induction l with
  | nil => intro seenT seenC; rfl
  | cons r rest ih => intro seenT seenC; simp [divGo, ih]

/-- The penalty the diversity loop applies at position `i`, starting from
initial seen-sets `seenT`/`seenC`: `df` when the candidate's normalized
title was already seen (initially or at an earlier position), plus `df/2`
when its court was. -/
def penaltyAt (df : ℚ) (seenT seenC : List String) (l : List Candidate)
    (i : ℕ) (hi : i < l.length) : ℚ :=
  (if divTitle (l.get ⟨i, hi⟩) ≠ "" ∧ (normalizeTitle (divTitle (l.get ⟨i, hi⟩)) ∈ seenT ∨ normalizeTitle (divTitle (l.get ⟨i, hi⟩)) ∈ titlesBefore l i) then df else 0) +
  (if (l.get ⟨i, hi⟩).metaCourt ≠ "" ∧ ((l.get ⟨i, hi⟩).metaCourt ∈ seenC ∨ (l.get ⟨i, hi⟩).metaCourt ∈ courtsBefore l i) then df * (1/2) else 0)

/-- The candidate the diversity loop produces at position `i`: the input
candidate with its combined score reduced by the penalty, floored at 0. -/
def divSpecAt (df : ℚ) (seenT seenC : List String) (l : List Candidate)
    (i : ℕ) (hi : i < l.length) : Candidate :=
  { l.get ⟨i, hi⟩ with combinedScore := max 0 ((l.get ⟨i, hi⟩).combinedScore - penaltyAt df seenT seenC l i hi) }

theorem divGo_get_spec (df : ℚ) :
    ∀ (l : List Candidate) (seenT seenC : List String) (i : ℕ)
      (hi : i < l.length) (hi' : i < (divGo df l seenT seenC).length),
      (divGo df l seenT seenC).get ⟨i, hi'⟩ = divSpecAt df seenT seenC l i hi := by
  intro l
  induction l with
  | nil => intro seenT seenC i hi; cases hi
  | cons r rest ih =>
    intro seenT seenC i hi hi'
    cases i with
    | zero =>
      show ({ r with combinedScore := max 0 (r.combinedScore - divPen df seenT seenC r) }) = _
      have hT : (divTitle r ≠ "" ∧ seenT.contains (normalizeTitle (divTitle r)) = true) ↔
          (divTitle r ≠ "" ∧ (normalizeTitle (divTitle r) ∈ seenT ∨
            normalizeTitle (divTitle r) ∈ titlesBefore (r :: rest) 0)) := by
        rw [contains_iff_mem_str]
        simp [titlesBefore]
      have hC : (r.metaCourt ≠ "" ∧ seenC.contains r.metaCourt = true) ↔
          (r.metaCourt ≠ "" ∧ (r.metaCourt ∈ seenC ∨
            r.metaCourt ∈ courtsBefore (r :: rest) 0)) := by
        rw [contains_iff_mem_str]
        simp [courtsBefore]
      unfold divSpecAt penaltyAt divPen
      rw [if_congr hT rfl rfl, if_congr hC rfl rfl]
      rfl
    | succ j =>
      have hj : j < rest.length := Nat.lt_of_succ_lt_succ hi
      have hj' : j < (divGo df rest
          (if divTitle r ≠ "" then normalizeTitle (divTitle r) :: seenT else seenT)
          (if r.metaCourt ≠ "" then r.metaCourt :: seenC else seenC)).length := by
        rw [divGo_length]; exact hj
      show (divGo df rest _ _).get ⟨j, hj'⟩ = _
      rw [ih _ _ j hj hj']
      have hTB : ∀ x, (x ∈ (if divTitle r ≠ "" then normalizeTitle (divTitle r) :: seenT else seenT) ∨
          x ∈ titlesBefore rest j) ↔
          (x ∈ seenT ∨ x ∈ titlesBefore (r :: rest) (j + 1)) := by
        intro x
        have heq : titlesBefore (r :: rest) (j + 1) =
            if divTitle r ≠ "" then
              normalizeTitle (divTitle r) :: titlesBefore rest j
            else titlesBefore rest j := by
          by_cases hr : divTitle r ≠ "" <;>
            simp [titlesBefore, List.take_succ_cons, List.filterMap_cons, hr]
        rw [heq]
        by_cases hr : divTitle r ≠ "" <;> simp [hr, List.mem_cons] <;> tauto
      have hCB : ∀ x, (x ∈ (if r.metaCourt ≠ "" then r.metaCourt :: seenC else seenC) ∨
          x ∈ courtsBefore rest j) ↔
          (x ∈ seenC ∨ x ∈ courtsBefore (r :: rest) (j + 1)) := by
        intro x
        have heq : courtsBefore (r :: rest) (j + 1) =
            if r.metaCourt ≠ "" then r.metaCourt :: courtsBefore rest j
            else courtsBefore rest j := by
          by_cases hr : r.metaCourt ≠ "" <;>
            simp [courtsBefore, List.take_succ_cons, List.filterMap_cons, hr]
        rw [heq]
        by_cases hr : r.metaCourt ≠ "" <;> simp [hr, List.mem_cons] <;> tauto
      unfold divSpecAt penaltyAt
      have hget : (r :: rest).get ⟨j + 1, hi⟩ = rest.get ⟨j, hj⟩ := rfl
      rw [hget]
      rw [if_congr (and_congr_right (fun _ => hTB (normalizeTitle (divTitle (rest.get ⟨j, hj⟩))))) rfl rfl,
        if_congr (and_congr_right (fun _ => hCB (rest.get ⟨j, hj⟩).metaCourt)) rfl rfl]

/-! #### Score-bound lemmas for C2 -/

theorem clamp01_nonneg (x : ℚ) : 0 ≤ clamp01 x :=
  le_min (le_max_right x 0) zero_le_one

theorem clamp01_le_one (x : ℚ) : clamp01 x ≤ 1 := min_le_right _ _

theorem hostedScoreFor_nonneg (rs : List (String × ℚ)) (k : String)
    (hrs : ∀ p ∈ rs, 0 ≤ p.2) : 0 ≤ hostedScoreFor rs k := by
  unfold hostedScoreFor
  cases hfind : rs.find? (fun p => p.1 == k) with
  | none => simp [hfind]
  | some p =>
    have hp := hrs p (List.mem_of_find?_eq_some hfind)
    simp only [hfind, Option.map_some']
    split <;> simp_all

theorem scoreCandidate_le_one (opts : RerankOptions) (rs : List (String × ℚ))
    (vlen mlen : ℕ) (p : String × Candidate) :
    (scoreCandidate opts rs vlen mlen p).combinedScore ≤ 1 := by
  unfold scoreCandidate
  exact min_le_right _ _

theorem scoreCandidate_nonneg (opts : RerankOptions) (rs : List (String × ℚ))
    (vlen mlen : ℕ) (p : String × Candidate)
    (hsw : 0 ≤ opts.semanticWeight) (hrw : 0 ≤ opts.rerankerWeight)
    (hmw : 0 ≤ opts.metadataWeight) (hdf : opts.diversityFactor ≤ 1)
    (hrs : ∀ q ∈ rs, 0 ≤ q.2) :
    0 ≤ (scoreCandidate opts rs vlen mlen p).combinedScore := by
  unfold scoreCandidate
  have hbase : 0 ≤
      clamp01 p.2.vectorScore * opts.semanticWeight +
      hostedScoreFor rs p.1 * opts.rerankerWeight +
      clamp01 p.2.metadataScore * opts.metadataWeight :=
    add_nonneg (add_nonneg (mul_nonneg (clamp01_nonneg _) hsw)
        (mul_nonneg (hostedScoreFor_nonneg rs p.1 hrs) hrw))
      (mul_nonneg (clamp01_nonneg _) hmw)
  refine le_min ?_ zero_le_one
  split
  · exact mul_nonneg hbase (by linarith)
  · exact hbase

theorem divGo_nonneg (df : ℚ) :
    ∀ (l : List Candidate) (seenT seenC : List String),
      ∀ c ∈ divGo df l seenT seenC, 0 ≤ c.combinedScore := by
  intro l
  induction l with
  | nil => intro seenT seenC c hc; simp [divGo] at hc
  | cons r rest ih =>
    intro seenT seenC c hc
    simp only [divGo, List.mem_cons] at hc
    rcases hc with hc | hc
    · subst hc; exact le_max_left 0 _
    · exact ih _ _ c hc

theorem divGo_le_one (df : ℚ) (hdf : 0 ≤ df) :
    ∀ (l : List Candidate) (seenT seenC : List String),
      (∀ c ∈ l, c.combinedScore ≤ 1) →
      ∀ c ∈ divGo df l seenT seenC, c.combinedScore ≤ 1 := by
  intro l
  induction l with
  | nil => intro seenT seenC _ c hc; simp [divGo] at hc
  | cons r rest ih =>
    intro seenT seenC h c hc
    simp only [divGo, List.mem_cons] at hc
    rcases hc with hc | hc
    · subst hc
      refine max_le zero_le_one ?_
      have h1 : r.combinedScore ≤ 1 := h r (List.mem_cons_self r rest)
      have hpen : (0 : ℚ) ≤ divPen df seenT seenC r := by
        unfold divPen
        apply add_nonneg <;> split <;> first | exact le_refl 0 | linarith
      linarith
    · exact ih _ _ (fun c hc => h c (List.mem_cons_of_mem r hc)) c hc

theorem applyDiversity_nonneg (results : List Candidate) (df : ℚ)
    (h : ∀ c ∈ results, 0 ≤ c.combinedScore) :
    ∀ c ∈ applyDiversity results df, 0 ≤ c.combinedScore := by
  unfold applyDiversity
  split
  · exact h
  · intro c hc
    rw [sortByCombinedDesc, List.mem_insertionSort] at hc
    exact divGo_nonneg df results [] [] c hc

theorem applyDiversity_le_one (results : List Candidate) (df : ℚ)
    (h : ∀ c ∈ results, c.combinedScore ≤ 1) :
    ∀ c ∈ applyDiversity results df, c.combinedScore ≤ 1 := by
  unfold applyDiversity
  split
  · exact h
  · next hcond =>
    intro c hc
    rw [sortByCombinedDesc, List.mem_insertionSort] at hc
    have hdf : (0 : ℚ) ≤ df := by
      rcases not_or.mp hcond with ⟨h1, _⟩
      linarith [not_le.mp h1]
    exact divGo_le_one df hdf results [] [] h c hc

/-- Claim C2 (amended): the combined score of every fused candidate is at
most 1 unconditionally; it is at least 0 provided the three weights are
nonnegative, `diversityFactor ≤ 1`, and every score in the hosted-reranker
map is nonnegative.  The claim as stated (for *every* options value) fails
because the source only caps from above (`Math.min(combinedScore, 1)`). -/
theorem C2_amended (vs : List VectorResult) (ms : List MetaRecord) (q : String)
    (opts : RerankOptions) (rs : List (String × ℚ)) :
    (∀ c ∈ fuse vs ms q opts rs, c.combinedScore ≤ 1) ∧
    (0 ≤ opts.semanticWeight → 0 ≤ opts.rerankerWeight → 0 ≤ opts.metadataWeight →
      opts.diversityFactor ≤ 1 → (∀ p ∈ rs, 0 ≤ p.2) →
      ∀ c ∈ fuse vs ms q opts rs, 0 ≤ c.combinedScore) := by
  have hmem : ∀ c ∈ fuse vs ms q opts rs,
      c ∈ applyDiversity
        (sortByCombinedDesc ((documentMap vs ms q).map
          (scoreCandidate opts rs vs.length ms.length))) opts.diversityFactor := by
    intro c hc
    exact List.take_subset _ _ hc
  constructor
  · intro c hc
    refine applyDiversity_le_one _ _ ?_ c (hmem c hc)
    intro c' hc'
    rw [sortByCombinedDesc, List.mem_insertionSort, List.mem_map] at hc'
    obtain ⟨p, _, rfl⟩ := hc'
    exact scoreCandidate_le_one opts rs vs.length ms.length p
  · intro hsw hrw hmw hdf hrs c hc
    refine applyDiversity_nonneg _ _ ?_ c (hmem c hc)
    intro c' hc'
    rw [sortByCombinedDesc, List.mem_insertionSort, List.mem_map] at hc'
    obtain ⟨p, _, rfl⟩ := hc'
    exact scoreCandidate_nonneg opts rs vs.length ms.length p hsw hrw hmw hdf hrs

/-- Witness for C2 (amended) at a concrete input: a single full-similarity
vector candidate under default options and no reranker map fuses to combined
score 4/5, which the theorem bounds inside the unit interval. -/
theorem C2_amended_witness :
    ((fuse [{ id := "d1", score := 1 }] [] "" {} []).headI.combinedScore ≤ 1) ∧
    (0 ≤ (fuse [{ id := "d1", score := 1 }] [] "" {} []).headI.combinedScore) := by
  have h := C2_amended [{ id := "d1", score := 1 }] [] "" {} []
  have hmem : (fuse [{ id := "d1", score := 1 }] [] "" {} []).headI ∈
      fuse [{ id := "d1", score := 1 }] [] "" {} [] := by
    with_unfolding_all decide
  refine ⟨h.1 _ hmem, h.2 ?_ ?_ ?_ ?_ ?_ _ hmem⟩
  all_goals first
  | (intro p hp; exact absurd hp (List.not_mem_nil p))
  | with_unfolding_all decide

/-! #### Association-list lemmas for the merge map -/

def keysOf (m : DocMap) : List String := m.map Prod.fst

theorem alookup_cons (p : String × Candidate) (m : DocMap) (k : String) :
    alookup (p :: m) k = if p.1 = k then some p.2 else alookup m k := by
  by_cases hp : p.1 = k
  · simp only [alookup, List.find?, if_pos hp, show (p.1 == k) = true by simpa using hp]
    rfl
  · simp only [alookup, List.find?, if_neg hp, show (p.1 == k) = false by simpa using hp]

theorem hasKey_eq_isSome (m : DocMap) (k : String) :
    hasKey m k = (alookup m k).isSome := by
  induction m with
  | nil => rfl
  | cons p rest ih =>
    rw [alookup_cons]
    by_cases hp : p.1 = k
    · simp [hasKey, hp]
    · simp only [if_neg hp, hasKey, List.any_cons,
        show (p.1 == k) = false by simpa using hp, Bool.false_or]
      exact ih

theorem alookup_eq_none_of_not_mem_keys (m : DocMap) (k : String)
    (h : k ∉ keysOf m) : alookup m k = none := by
  induction m with
  | nil => rfl
  | cons p rest ih =>
    simp only [keysOf, List.map_cons, List.mem_cons, not_or] at h
    rw [alookup_cons, if_neg (fun hh => h.1 hh.symm)]
    exact ih (by simpa [keysOf] using h.2)

theorem alookup_append_single (m : DocMap) (k k' : String) (v : Candidate) :
    alookup (m ++ [(k, v)]) k' =
      match alookup m k' with
      | some c => some c
      | none => if k' = k then some v else none := by
  induction m with
  | nil =>
    rw [List.nil_append, alookup_cons]
    show (if k = k' then some v else alookup [] k') = _
    by_cases h : k = k'
    · rw [if_pos h]
      show _ = (if k' = k then some v else none)
      rw [if_pos h.symm]
    · rw [if_neg h]
      show (none : Option Candidate) = (if k' = k then some v else none)
      rw [if_neg (fun hh => h hh.symm)]
  | cons p rest ih =>
    rw [List.cons_append, alookup_cons, alookup_cons]
    by_cases hp : p.1 = k' <;> simp [hp, ih]

theorem alookup_replaceAll (m : DocMap) (k k' : String) (v : Candidate) :
    alookup (m.map (fun p => if p.1 == k then (k, v) else p)) k' =
      if k' = k then (if hasKey m k then some v else none)
      else alookup m k' := by
  induction m with
  | nil => by_cases h : k' = k <;> simp [alookup, hasKey, h]
  | cons p rest ih =>
    simp only [List.map_cons]
    by_cases hp : p.1 = k
    · rw [show (if p.1 == k then (k, v) else p) = (k, v) by simp [hp]]
      rw [alookup_cons]
      by_cases hk : k' = k
      · simp [hk, hasKey, hp]
      · rw [if_neg (fun hh : k = k' => hk hh.symm), ih, if_neg hk, alookup_cons,
          if_neg (fun hh : p.1 = k' => hk (hp ▸ hh : k = k').symm), if_neg hk]
    · rw [show (if p.1 == k then (k, v) else p) = p by simp [hp]]
      rw [alookup_cons, alookup_cons]
      by_cases hpk : p.1 = k'
      · have hk : ¬ (k' = k) := fun hh => hp (hpk.trans hh)
        simp [hpk, hk]
      · simp only [hpk, if_false, ih]
        by_cases hk : k' = k
        · rw [if_pos hk, if_pos hk]
          have : hasKey (p :: rest) k = hasKey rest k := by
            simp [hasKey, show (p.1 == k) = false by simpa using hp]
          rw [this]
        · rw [if_neg hk, if_neg hk]

theorem alookup_mapSet (m : DocMap) (k k' : String) (v : Candidate) :
    alookup (mapSet m k v) k' = if k' = k then some v else alookup m k' := by
  unfold mapSet
  by_cases h : hasKey m k
  · simp only [h, if_true]
    rw [alookup_replaceAll]
    by_cases hk : k' = k <;> simp [hk, h]
  · rw [if_neg h, alookup_append_single]
    have hnone : alookup m k = none := by
      have h2 := hasKey_eq_isSome m k
      rw [show hasKey m k = false by simpa using h] at h2
      exact Option.not_isSome_iff_eq_none.mp (by simp [← h2])
    by_cases hk : k' = k
    · subst hk
      simp [hnone]
    · rw [if_neg hk]
      cases halk : alookup m k' with
      | none => simp [hk]
      | some c => simp [hk]

theorem alookup_mapUpdate (m : DocMap) (k k' : String) (f : Candidate → Candidate) :
    alookup (mapUpdate m k f) k' =
      if k' = k then (alookup m k).map f else alookup m k' := by
  induction m with
  | nil => by_cases h : k' = k <;> simp [alookup, mapUpdate, h]
  | cons p rest ih =>
    simp only [mapUpdate, List.map_cons] at ih ⊢
    by_cases hp : p.1 = k
    · rw [show (if p.1 == k then (p.1, f p.2) else p) = (p.1, f p.2) by simp [hp]]
      by_cases hk : k' = k
      · rw [if_pos hk, alookup_cons, alookup_cons, if_pos (hp.trans hk.symm), if_pos hp]
        rfl
      · have hpk : ¬ (p.1 = k') := fun hh => hk ((hp ▸ hh : k = k')).symm
        rw [if_neg hk, alookup_cons, alookup_cons, if_neg hpk, if_neg hpk, ih, if_neg hk]
    · rw [show (if p.1 == k then (p.1, f p.2) else p) = p by simp [hp]]
      by_cases hpk : p.1 = k'
      · have hk : ¬ (k' = k) := fun hh => hp (hpk.trans hh)
        rw [if_neg hk, alookup_cons, alookup_cons, if_pos hpk, if_pos hpk]
      · rw [alookup_cons, if_neg hpk, ih]
        by_cases hk : k' = k
        · rw [if_pos hk, if_pos hk, alookup_cons, if_neg hp]
        · rw [if_neg hk, if_neg hk, alookup_cons, if_neg hpk]

theorem keysOf_mapSet (m : DocMap) (k : String) (v : Candidate) :
    keysOf (mapSet m k v) = if hasKey m k then keysOf m else keysOf m ++ [k] := by
  unfold mapSet
  split
  · simp only [keysOf, List.map_map]
    congr 1
    funext p
    by_cases hp : p.1 = k <;> simp [hp, Function.comp]
  · simp [keysOf]

theorem keysOf_mapUpdate (m : DocMap) (k : String) (f : Candidate → Candidate) :
    keysOf (mapUpdate m k f) = keysOf m := by
  simp only [keysOf, mapUpdate, List.map_map]
  congr 1
  funext p
  by_cases hp : p.1 = k <;> simp [hp, Function.comp]

theorem not_hasKey_iff_not_mem_keys (m : DocMap) (k : String) :
    hasKey m k = false ↔ k ∉ keysOf m := by
  induction m with
  | nil => simp [hasKey, keysOf]
  | cons p rest ih =>
    by_cases hp : p.1 = k
    · simp [hasKey, keysOf, hp]
    · simp only [hasKey, List.any_cons, show (p.1 == k) = false by simpa using hp,
        Bool.false_or, keysOf, List.map_cons, List.mem_cons, not_or]
      constructor
      · intro h
        exact ⟨fun hh => hp hh.symm, ih.mp h⟩
      · intro h
        exact ih.mpr h.2

/-! #### Characterisation of the vector phase (step 2) -/

/-- The last vector result with id `k` seen so far (later `Map.set` calls on
the same id overwrite earlier ones). -/
def lastVecGo (k : String) : Option VectorResult → List VectorResult → Option VectorResult
  | acc, [] => acc
  | acc, r :: rest =>
    lastVecGo k (if vidOf r = k ∧ k ≠ "" then some r else acc) rest

/-- Helper for stating the vector-phase characterisation: the lookup result
determined by the last matching vector result, with default `d` when none
matched. -/
def vecOutcome (o : Option VectorResult) (d : Option Candidate) : Option Candidate :=
  match o with
  | some r => some (vecCandidate r)
  | none => d

theorem lastVecGo_acc_some (k : String) :
    ∀ (vs : List VectorResult) (r : VectorResult),
      ∃ r', lastVecGo k (some r) vs = some r' := by
  intro vs
  induction vs with
  | nil => intro r; exact ⟨r, rfl⟩
  | cons r0 rest ih =>
    intro r
    simp only [lastVecGo]
    by_cases hcond : vidOf r0 = k ∧ k ≠ ""
    · rw [if_pos hcond]; exact ih r0
    · rw [if_neg hcond]; exact ih r

theorem vecOutcome_irrel_of_acc_some (k : String) (vs : List VectorResult)
    (r : VectorResult) (d d' : Option Candidate) :
    vecOutcome (lastVecGo k (some r) vs) d = vecOutcome (lastVecGo k (some r) vs) d' := by
  obtain ⟨r', hr'⟩ := lastVecGo_acc_some k vs r
  rw [hr']
  rfl

theorem vecPhase_go_alookup (k : String) :
    ∀ (vs : List VectorResult) (m0 : DocMap) (acc : Option VectorResult),
      (∀ r, acc = some r → alookup m0 k = some (vecCandidate r)) →
      alookup (vs.foldl
          (fun m r => if vidOf r = "" then m else mapSet m (vidOf r) (vecCandidate r)) m0) k =
        vecOutcome (lastVecGo k acc vs) (alookup m0 k) := by
  intro vs
  induction vs with
  | nil =>
    intro m0 acc hacc
    cases acc with
    | none => rfl
    | some r => simpa [lastVecGo, vecOutcome] using hacc r rfl
  | cons r rest ih =>
    intro m0 acc hacc
    simp only [List.foldl_cons, lastVecGo]
    by_cases hcond : vidOf r = k ∧ k ≠ ""
    · rw [if_pos hcond]
      have hne : ¬ (vidOf r = "") := hcond.1 ▸ hcond.2
      rw [if_neg hne]
      have hlook : alookup (mapSet m0 (vidOf r) (vecCandidate r)) k
          = some (vecCandidate r) := by
        rw [hcond.1, alookup_mapSet, if_pos rfl]
      rw [ih (mapSet m0 (vidOf r) (vecCandidate r)) (some r)
        (fun r' hr' => by cases hr'; exact hlook)]
      exact vecOutcome_irrel_of_acc_some k rest r _ _
    · rw [if_neg hcond]
      by_cases hskip : vidOf r = ""
      · rw [if_pos hskip]
        exact ih m0 acc hacc
      · rw [if_neg hskip]
        have hvk : ¬ (k = vidOf r) := by
          intro hh
          exact hcond ⟨hh.symm, fun hk0 => hskip (hh ▸ hk0)⟩
        have heq : alookup (mapSet m0 (vidOf r) (vecCandidate r)) k = alookup m0 k := by
          rw [alookup_mapSet, if_neg hvk]
        rw [ih (mapSet m0 (vidOf r) (vecCandidate r)) acc
          (fun r' hr' => heq.trans (hacc r' hr')), heq]

theorem vecPhase_alookup (vs : List VectorResult) (k : String) :
    alookup (vecPhase vs) k = vecOutcome (lastVecGo k none vs) none := by
  unfold vecPhase
  exact vecPhase_go_alookup k vs [] none (fun r hr => by cases hr)

theorem lastVecGo_eq_none_iff (k : String) :
    ∀ (vs : List VectorResult) (acc : Option VectorResult),
      lastVecGo k acc vs = none ↔
        (acc = none ∧ ∀ r ∈ vs, ¬ (vidOf r = k ∧ k ≠ "")) := by
  intro vs
  induction vs with
  | nil => intro acc; simp [lastVecGo]
  | cons r rest ih =>
    intro acc
    simp only [lastVecGo]
    by_cases hcond : vidOf r = k ∧ k ≠ ""
    · rw [if_pos hcond, ih]
      simp [hcond]
    · rw [if_neg hcond, ih]
      simp only [List.mem_cons]
      constructor
      · rintro ⟨h1, h2⟩
        exact ⟨h1, fun r' hr' => hr'.elim (fun hh => hh ▸ hcond) (h2 r')⟩
      · rintro ⟨h1, h2⟩
        exact ⟨h1, fun r' hr' => h2 r' (Or.inr hr')⟩

theorem lastVecGo_some_cond (k : String) :
    ∀ (vs : List VectorResult) (acc : Option VectorResult) (r : VectorResult),
      lastVecGo k acc vs = some r →
      (r ∈ vs ∧ vidOf r = k ∧ k ≠ "") ∨ acc = some r := by
  intro vs
  induction vs with
  | nil => intro acc r h; exact Or.inr h
  | cons r0 rest ih =>
    intro acc r h
    simp only [lastVecGo] at h
    by_cases hcond : vidOf r0 = k ∧ k ≠ ""
    · rw [if_pos hcond] at h
      rcases ih _ r h with h1 | h1
      · exact Or.inl ⟨List.mem_cons_of_mem r0 h1.1, h1.2⟩
      · cases h1
        exact Or.inl ⟨List.mem_cons_self r0 rest, hcond⟩
    · rw [if_neg hcond] at h
      rcases ih _ r h with h1 | h1
      · exact Or.inl ⟨List.mem_cons_of_mem r0 h1.1, h1.2⟩
      · exact Or.inr h1

theorem vecPhase_alookup_isSome_iff (vs : List VectorResult) (k : String) :
    (alookup (vecPhase vs) k).isSome ↔ (k ≠ "" ∧ ∃ r ∈ vs, vidOf r = k) := by
  rw [vecPhase_alookup]
  cases hl : lastVecGo k none vs with
  | none =>
    rw [lastVecGo_eq_none_iff] at hl
    simp only [vecOutcome, Option.isSome_none, Bool.false_eq_true, false_iff, not_and]
    rintro hk ⟨r, hr, hv⟩
    exact hl.2 r hr ⟨hv, hk⟩
  | some r =>
    simp only [vecOutcome, Option.isSome_some, true_iff]
    rcases lastVecGo_some_cond k vs none r hl with ⟨hmem, hv, hk⟩ | h1
    · exact ⟨hk, r, hmem, hv⟩
    · cases h1

/-! #### Characterisation of the metadata phase (step 3) -/

/-- The effect of the metadata loop on the entry stored at a fixed key `k`:
records with other ids leave it alone; the first matching record installs a
metadata-only candidate when nothing is there yet, and every matching record
after that (or any matching record if a vector entry is present) applies the
hybrid update. -/
def metaLookupModel (qt : List String) (k : String) :
    Option Candidate → List MetaRecord → Option Candidate
  | c0, [] => c0
  | c0, r :: rest =>
    if r.doc_id = k ∧ k ≠ "" then
      metaLookupModel qt k
        (some (match c0 with
          | some c => hybridUpdate r (calculateMetadataRelevance r qt) c
          | none => metaCandidate r (calculateMetadataRelevance r qt))) rest
    else metaLookupModel qt k c0 rest

theorem metaPhase_alookup (qt : List String) (k : String) (hk : k ≠ "") :
    ∀ (rs : List MetaRecord) (m0 : DocMap),
      alookup (metaPhase m0 rs qt) k = metaLookupModel qt k (alookup m0 k) rs := by
  intro rs
  induction rs with
  | nil => intro m0; rfl
  | cons r rest ih =>
    intro m0
    simp only [metaPhase, List.foldl_cons, metaLookupModel] at ih ⊢
    by_cases hskip : r.doc_id = ""
    · have hcond : ¬ (r.doc_id = k ∧ k ≠ "") := fun hh => hh.2 (hh.1.symm.trans hskip)
      rw [if_pos hskip, if_neg hcond]
      exact ih m0
    · rw [if_neg hskip]
      by_cases hrk : r.doc_id = k
      · by_cases hhas : hasKey m0 r.doc_id
        · rw [if_pos hhas, if_pos (show r.doc_id = k ∧ k ≠ "" from ⟨hrk, hk⟩)]
          have hsome : (alookup m0 k).isSome := by
            rw [← hasKey_eq_isSome, ← hrk]
            exact hhas
          obtain ⟨c, hc⟩ := Option.isSome_iff_exists.mp hsome
          rw [ih, alookup_mapUpdate, hrk, if_pos rfl, hc]
          rfl
        · rw [if_neg hhas, if_pos (show r.doc_id = k ∧ k ≠ "" from ⟨hrk, hk⟩)]
          have hnone : alookup m0 k = none := by
            rw [← hrk]
            have h2 := hasKey_eq_isSome m0 r.doc_id
            rw [show hasKey m0 r.doc_id = false by simpa using hhas] at h2
            exact Option.not_isSome_iff_eq_none.mp (by simp [← h2])
          rw [ih, alookup_append_single, hnone, hrk, if_pos rfl]
      · by_cases hhas : hasKey m0 r.doc_id
        · rw [if_pos hhas,
            if_neg (show ¬ (r.doc_id = k ∧ k ≠ "") from fun hh => hrk hh.1),
            ih, alookup_mapUpdate, if_neg (fun hh : k = r.doc_id => hrk hh.symm)]
        · rw [if_neg hhas,
            if_neg (show ¬ (r.doc_id = k ∧ k ≠ "") from fun hh => hrk hh.1),
            ih, alookup_append_single]
          cases halk : alookup m0 k with
          | some c => rfl
          | none => rw [if_neg (fun hh : k = r.doc_id => hrk hh.symm)]

/-- Number of metadata records carrying document id `k`. -/
def cntMeta (rs : List MetaRecord) (k : String) : ℕ :=
  (rs.filter (fun r => r.doc_id == k)).length

theorem metaLookupModel_some_char (qt : List String) (k : String) (hk : k ≠ "") :
    ∀ (rs : List MetaRecord) (c : Candidate),
      ∃ c', metaLookupModel qt k (some c) rs = some c' ∧
        c'.vectorScore = c.vectorScore ∧ c'.docId = c.docId ∧
        (cntMeta rs k = 0 → c' = c) ∧
        (0 < cntMeta rs k → c'.source = Source.hybrid) := by
  intro rs
  induction rs with
  | nil =>
    intro c
    exact ⟨c, rfl, rfl, rfl, fun _ => rfl, fun h => absurd h (by simp [cntMeta])⟩
  | cons r rest ih =>
    intro c
    by_cases hrk : r.doc_id = k
    · have hcnt : cntMeta (r :: rest) k = cntMeta rest k + 1 := by
        simp [cntMeta, List.filter_cons, hrk]
      obtain ⟨c', hmodel, hvs, hdoc, hz, hpos⟩ :=
        ih (hybridUpdate r (calculateMetadataRelevance r qt) c)
      refine ⟨c', ?_, ?_, ?_, ?_, ?_⟩
      · simp only [metaLookupModel, if_pos (show r.doc_id = k ∧ k ≠ "" from ⟨hrk, hk⟩)]
        exact hmodel
      · exact hvs
      · exact hdoc
      · intro h0; rw [hcnt] at h0; cases h0
      · intro _
        rcases Nat.eq_zero_or_pos (cntMeta rest k) with hz0 | hp0
        · rw [hz hz0]; rfl
        · exact hpos hp0
    · have hcnt : cntMeta (r :: rest) k = cntMeta rest k := by
        simp [cntMeta, List.filter_cons, hrk]
      obtain ⟨c', hmodel, hvs, hdoc, hz, hpos⟩ := ih c
      refine ⟨c', ?_, hvs, hdoc, ?_, ?_⟩
      · simp only [metaLookupModel, if_neg (fun hh : r.doc_id = k ∧ k ≠ "" => hrk hh.1)]
        exact hmodel
      · rw [hcnt]; exact hz
      · rw [hcnt]; exact hpos

theorem metaLookupModel_none_char (qt : List String) (k : String) (hk : k ≠ "") :
    ∀ (rs : List MetaRecord),
      (cntMeta rs k = 0 → metaLookupModel qt k none rs = none) ∧
      (∀ c', metaLookupModel qt k none rs = some c' →
        c'.vectorScore = 0 ∧ c'.docId = k ∧
        (cntMeta rs k = 1 → c'.source = Source.metadata) ∧
        (2 ≤ cntMeta rs k → c'.source = Source.hybrid)) := by
  intro rs
  induction rs with
  | nil =>
    refine ⟨fun _ => rfl, fun c' h => ?_⟩
    cases h
  | cons r rest ih =>
    by_cases hrk : r.doc_id = k
    · have hcnt : cntMeta (r :: rest) k = cntMeta rest k + 1 := by
        simp [cntMeta, List.filter_cons, hrk]
      constructor
      · intro h0; rw [hcnt] at h0; cases h0
      · intro c' hmodel
        simp only [metaLookupModel,
          if_pos (show r.doc_id = k ∧ k ≠ "" from ⟨hrk, hk⟩)] at hmodel
        obtain ⟨c'', hm2, hvs, hdoc, hz, hpos⟩ :=
          metaLookupModel_some_char qt k hk rest
            (metaCandidate r (calculateMetadataRelevance r qt))
        rw [hm2] at hmodel
        cases hmodel
        refine ⟨by rw [hvs]; rfl, by rw [hdoc, metaCandidate, hrk], ?_, ?_⟩
        · intro h1
          rw [hcnt] at h1
          have hz0 : cntMeta rest k = 0 := by omega
          rw [hz hz0]
          rfl
        · intro h2
          rw [hcnt] at h2
          exact hpos (by omega)
    · have hcnt : cntMeta (r :: rest) k = cntMeta rest k := by
        simp [cntMeta, List.filter_cons, hrk]
      constructor
      · intro h0
        simp only [metaLookupModel, if_neg (fun hh : r.doc_id = k ∧ k ≠ "" => hrk hh.1)]
        exact ih.1 (hcnt ▸ h0)
      · intro c' hmodel
        simp only [metaLookupModel,
          if_neg (fun hh : r.doc_id = k ∧ k ≠ "" => hrk hh.1)] at hmodel
        obtain ⟨hvs, hdoc, h1, h2⟩ := ih.2 c' hmodel
        exact ⟨hvs, hdoc, fun hh => h1 (hcnt ▸ hh), fun hh => h2 (hcnt ▸ hh)⟩

/-! #### Key-set invariants of the merge map -/

theorem vecPhase_go_invariant (vs : List VectorResult) :
    ∀ (m0 : DocMap), (keysOf m0).Nodup → "" ∉ keysOf m0 →
      (keysOf (vs.foldl
        (fun m r => if vidOf r = "" then m else mapSet m (vidOf r) (vecCandidate r)) m0)).Nodup ∧
      "" ∉ keysOf (vs.foldl
        (fun m r => if vidOf r = "" then m else mapSet m (vidOf r) (vecCandidate r)) m0) := by
  induction vs with
  | nil => intro m0 h1 h2; exact ⟨h1, h2⟩
  | cons r rest ih =>
    intro m0 h1 h2
    simp only [List.foldl_cons]
    by_cases hskip : vidOf r = ""
    · rw [if_pos hskip]; exact ih m0 h1 h2
    · rw [if_neg hskip]
      apply ih
      · rw [keysOf_mapSet]
        by_cases hhas : hasKey m0 (vidOf r)
        · rw [if_pos hhas]; exact h1
        · rw [if_neg hhas]
          have hnot : vidOf r ∉ keysOf m0 :=
            (not_hasKey_iff_not_mem_keys m0 (vidOf r)).mp (by simpa using hhas)
          simp [List.nodup_append, h1, hnot]
      · rw [keysOf_mapSet]
        by_cases hhas : hasKey m0 (vidOf r)
        · rw [if_pos hhas]; exact h2
        · rw [if_neg hhas]
          simp only [List.mem_append, List.mem_cons, List.not_mem_nil]
          rintro (h | h | h)
          · exact h2 h
          · exact hskip h.symm
          · exact h

theorem metaPhase_go_invariant (qt : List String) (ms : List MetaRecord) :
    ∀ (m0 : DocMap), (keysOf m0).Nodup → "" ∉ keysOf m0 →
      (keysOf (metaPhase m0 ms qt)).Nodup ∧ "" ∉ keysOf (metaPhase m0 ms qt) := by
  induction ms with
  | nil => intro m0 h1 h2; exact ⟨h1, h2⟩
  | cons r rest ih =>
    intro m0 h1 h2
    simp only [metaPhase, List.foldl_cons] at ih ⊢
    by_cases hskip : r.doc_id = ""
    · rw [if_pos hskip]; exact ih m0 h1 h2
    · rw [if_neg hskip]
      by_cases hhas : hasKey m0 r.doc_id
      · rw [if_pos hhas]
        exact ih _ (keysOf_mapUpdate m0 r.doc_id _ ▸ h1)
          (keysOf_mapUpdate m0 r.doc_id _ ▸ h2)
      · rw [if_neg hhas]
        apply ih
        · have hnot : r.doc_id ∉ keysOf m0 :=
            (not_hasKey_iff_not_mem_keys m0 r.doc_id).mp (by simpa using hhas)
          have : keysOf (m0 ++ [(r.doc_id, metaCandidate r (calculateMetadataRelevance r qt))])
              = keysOf m0 ++ [r.doc_id] := by
            simp [keysOf]
          rw [this]
          simp [List.nodup_append, h1, hnot]
        · simp only [keysOf, List.map_append, List.map_cons, List.map_nil,
            List.mem_append, List.mem_cons, List.not_mem_nil]
          rintro (h | h | h)
          · exact h2 (by simpa [keysOf] using h)
          · exact hskip h.symm
          · exact h

theorem documentMap_keys_nodup (vs : List VectorResult) (ms : List MetaRecord)
    (q : String) : (keysOf (documentMap vs ms q)).Nodup := by
  unfold documentMap
  obtain ⟨h1, h2⟩ := vecPhase_go_invariant vs [] (by simp [keysOf]) (by simp [keysOf])
  exact (metaPhase_go_invariant (tokenize (lowerStr q)) ms (vecPhase vs) h1 h2).1

theorem documentMap_alookup_empty (vs : List VectorResult) (ms : List MetaRecord)
    (q : String) : alookup (documentMap vs ms q) "" = none := by
  apply alookup_eq_none_of_not_mem_keys
  unfold documentMap
  obtain ⟨h1, h2⟩ := vecPhase_go_invariant vs [] (by simp [keysOf]) (by simp [keysOf])
  exact (metaPhase_go_invariant (tokenize (lowerStr q)) ms (vecPhase vs) h1 h2).2

/-- The id under which step 2 indexed a vector result, together with the
source tag it assigned. -/
theorem vecPhase_alookup_some (vs : List VectorResult) (k : String) (c0 : Candidate)
    (h : alookup (vecPhase vs) k = some c0) :
    c0.docId = k ∧ c0.source = Source.vector := by
  rw [vecPhase_alookup] at h
  cases hl : lastVecGo k none vs with
  | none => rw [hl] at h; cases h
  | some r =>
    rw [hl] at h
    cases h
    rcases lastVecGo_some_cond k vs none r hl with ⟨_, hv, _⟩ | h1
    · exact ⟨hv, rfl⟩
    · cases h1

def inVec (vs : List VectorResult) (k : String) : Prop :=
  k ≠ "" ∧ ∃ r ∈ vs, vidOf r = k

def inMeta (ms : List MetaRecord) (k : String) : Prop :=
  k ≠ "" ∧ ∃ r ∈ ms, r.doc_id = k

theorem cntMeta_pos_iff (ms : List MetaRecord) (k : String) :
    0 < cntMeta ms k ↔ ∃ r ∈ ms, r.doc_id = k := by
  induction ms with
  | nil => simp [cntMeta]
  | cons r rest ih =>
    by_cases hr : r.doc_id = k
    · simp [cntMeta, List.filter_cons, hr]
    · simp only [cntMeta, List.filter_cons, show (r.doc_id == k) = false by simpa using hr,
        Bool.false_eq_true, if_false, List.mem_cons]
      rw [show ((List.filter (fun r => r.doc_id == k) rest).length =
        cntMeta rest k) from rfl, ih]
      constructor
      · rintro ⟨r', hr', hv⟩
        exact ⟨r', Or.inr hr', hv⟩
      · rintro ⟨r', hr' | hr', hv⟩
        · exact absurd (hr' ▸ hv) hr
        · exact ⟨r', hr', hv⟩

/-! ### Claim C3 — merge step -/

/-- Claim C3 is false as stated in one corner: a candidate present in only
the metadata list does *not* always retain the `metadata` source tag — a
second metadata record with the same `doc_id` takes the
`documentMap.has(docId)` branch and flips the already-inserted
metadata-only candidate to `hybrid`. -/
theorem C3_counterexample :
    (documentMap [] [{ doc_id := "d1" }, { doc_id := "d1" }] "").map
      (fun p => (p.1, p.2.source)) = [("d1", Source.hybrid)] ∧
    Source.hybrid ≠ Source.metadata := by
  with_unfolding_all decide

/-- Claim C3 (amended): after the merge steps of `fuse` the document map
holds exactly one candidate per unique id (its key list has no duplicates,
and the falsy id `""` is never a key); every stored candidate's `docId`
equals its key; an id present in both input lists is a single `hybrid`
candidate that keeps the vector phase's vector score; an id present only in
the vector list keeps source `vector`; an id present only in the metadata
list keeps source `metadata` when it occurs in exactly one metadata record,
but is flipped to `hybrid` when two or more metadata records share it.  The
hybrid scenario of the claim (vector `{id:"d1", score:0.9}` merged with
metadata `{doc_id:"d1", court:"X"}`) yields the single merged candidate with
source `hybrid` and vector score 0.9. -/
theorem C3_amended (vs : List VectorResult) (ms : List MetaRecord) (q : String) :
    (keysOf (documentMap vs ms q)).Nodup ∧
    alookup (documentMap vs ms q) "" = none ∧
    (∀ k c, alookup (documentMap vs ms q) k = some c →
      c.docId = k ∧
      (inVec vs k ∧ ¬ inMeta ms k → c.source = Source.vector) ∧
      (inVec vs k ∧ inMeta ms k → c.source = Source.hybrid ∧
        ∃ c0, alookup (vecPhase vs) k = some c0 ∧ c.vectorScore = c0.vectorScore) ∧
      (¬ inVec vs k ∧ k ≠ "" ∧ cntMeta ms k = 1 →
        c.source = Source.metadata ∧ c.vectorScore = 0) ∧
      (¬ inVec vs k ∧ k ≠ "" ∧ 2 ≤ cntMeta ms k →
        c.source = Source.hybrid ∧ c.vectorScore = 0)) ∧
    (documentMap [{ id := "d1", score := 9/10 }] [{ doc_id := "d1", court := "X" }] "").map
      (fun p => (p.1, p.2.source, p.2.vectorScore)) = [("d1", Source.hybrid, 9/10)] := by
  refine ⟨documentMap_keys_nodup vs ms q, documentMap_alookup_empty vs ms q, ?_,
    by with_unfolding_all decide⟩
  intro k c hc
  by_cases hk : k = ""
  · rw [hk, documentMap_alookup_empty vs ms q] at hc
    cases hc
  · unfold documentMap at hc
    rw [metaPhase_alookup (tokenize (lowerStr q)) k hk] at hc
    cases hvec : alookup (vecPhase vs) k with
    | some c0 =>
      have hInVec : inVec vs k := by
        have := (vecPhase_alookup_isSome_iff vs k).mp (by rw [hvec]; rfl)
        exact ⟨this.1, this.2⟩
      obtain ⟨c', hm, hvsc, hdoc, hzero, hpos⟩ :=
        metaLookupModel_some_char (tokenize (lowerStr q)) k hk ms c0
      rw [hvec, hm] at hc
      cases hc
      obtain ⟨hd0, hs0⟩ := vecPhase_alookup_some vs k c0 hvec
      refine ⟨hdoc.trans hd0, ?_, ?_, ?_, ?_⟩
      · rintro ⟨_, hnm⟩
        have hcnt : cntMeta ms k = 0 := by
          by_contra hpos0
          exact hnm ⟨hk, (cntMeta_pos_iff ms k).mp (Nat.pos_of_ne_zero hpos0)⟩
        rw [hzero hcnt]
        exact hs0
      · rintro ⟨_, _, hm0⟩
        refine ⟨hpos ((cntMeta_pos_iff ms k).mpr hm0), c0, rfl, hvsc⟩
      · rintro ⟨hnv, _⟩
        exact absurd hInVec hnv
      · rintro ⟨hnv, _⟩
        exact absurd hInVec hnv
    | none =>
      have hNotVec : ¬ inVec vs k := by
        intro hin
        have := (vecPhase_alookup_isSome_iff vs k).mpr hin
        rw [hvec] at this
        cases this
      rw [hvec] at hc
      obtain ⟨hvs0, hdoc, hone, htwo⟩ :=
        (metaLookupModel_none_char (tokenize (lowerStr q)) k hk ms).2 c hc
      refine ⟨hdoc, ?_, ?_, ?_, ?_⟩
      · rintro ⟨hv, _⟩
        exact absurd hv hNotVec
      · rintro ⟨hv, _⟩
        exact absurd hv hNotVec
      · rintro ⟨_, _, h1⟩
        exact ⟨hone h1, hvs0⟩
      · rintro ⟨_, _, h2⟩
        exact ⟨htwo h2, hvs0⟩

def c3wVec : VectorResult := { id := "d1", score := 9/10 }

def c3wMeta : MetaRecord := { doc_id := "d1", court := "X" }

/-- The merged candidate of the C3 hybrid scenario. -/
def c3wCand : Candidate :=
  { docId := "d1", vectorScore := 9/10, metadataScore := 1/2, metadataMatch := true,
    source := Source.hybrid, combinedScore := 0, title := "", text := "",
    metaTitle := "", metaCourt := "X" }

/-- Witness for C3 (amended) at the concrete hybrid scenario. -/
theorem C3_amended_witness :
    Candidate.source c3wCand = Source.hybrid ∧
    Candidate.vectorScore c3wCand = 9/10 := by
  have h := C3_amended [c3wVec] [c3wMeta] ""
  have hl : alookup (documentMap [c3wVec] [c3wMeta] "") "d1" = some c3wCand := by
    with_unfolding_all decide
  have h2 := h.2.2.1 "d1" c3wCand hl
  have hin : inVec [c3wVec] "d1" ∧ inMeta [c3wMeta] "d1" :=
    ⟨⟨by with_unfolding_all decide, c3wVec, List.mem_cons_self _ _,
        by with_unfolding_all decide⟩,
      ⟨by with_unfolding_all decide, c3wMeta, List.mem_cons_self _ _,
        by with_unfolding_all decide⟩⟩
  obtain ⟨hsrc, c0, hc0, hvsc⟩ := h2.2.2.1 hin
  refine ⟨hsrc, ?_⟩
  have hc0v : alookup (vecPhase [c3wVec]) "d1" = some (vecCandidate c3wVec) := by
    with_unfolding_all decide
  rw [hc0v] at hc0
  cases hc0
  rw [hvsc]
  with_unfolding_all decide

/-! ### Claim C4 — diversity pass -/

theorem penaltyAt_nonneg (df : ℚ) (seenT seenC : List String) (l : List Candidate)
    (i : ℕ) (hi : i < l.length) (hdf : 0 ≤ df) : 0 ≤ penaltyAt df seenT seenC l i hi := by
  unfold penaltyAt
  apply add_nonneg <;> split <;> first | exact le_refl 0 | linarith

theorem sortByCombinedDesc_pairwise (l : List Candidate) :
    List.Pairwise scoreGE (sortByCombinedDesc l) :=
  List.sorted_insertionSort scoreGE l

theorem fuse_pairwise (vs : List VectorResult) (ms : List MetaRecord) (q : String)
    (opts : RerankOptions) (rs : List (String × ℚ)) :
    List.Pairwise scoreGE (fuse vs ms q opts rs) := by
  unfold fuse
  apply List.Pairwise.sublist (List.take_sublist _ _)
  unfold applyDiversity
  split
  · exact sortByCombinedDesc_pairwise _
  · exact sortByCombinedDesc_pairwise _

/-- Claim C4: the diversity pass maps the candidate at position `i` to
itself with combined score `max 0 (old - penalty)`, where the penalty is
`diversityFactor` if its normalized title was already seen plus
`diversityFactor * 0.5` if its court was already seen (both can apply);
with nonnegative `diversityFactor` and a nonnegative input score the pass
never increases the score; a non-positive factor or a list of at most one
candidate passes through unchanged; and the fusion output is sorted
non-increasing by combined score and truncated to `maxResults`, whose
default is 10. -/
theorem C4_theorem (results : List Candidate) (df : ℚ) (vs : List VectorResult)
    (ms : List MetaRecord) (q : String) (opts : RerankOptions)
    (rs : List (String × ℚ)) :
    (df ≤ 0 ∨ results.length ≤ 1 → applyDiversity results df = results) ∧
    (∀ (i : ℕ) (hi : i < results.length) (hi' : i < (divGo df results [] []).length),
      (divGo df results [] []).get ⟨i, hi'⟩ = divSpecAt df [] [] results i hi) ∧
    (∀ (i : ℕ) (hi : i < results.length) (hi' : i < (divGo df results [] []).length),
      0 ≤ df → 0 ≤ (results.get ⟨i, hi⟩).combinedScore →
      ((divGo df results [] []).get ⟨i, hi'⟩).combinedScore ≤
        (results.get ⟨i, hi⟩).combinedScore) ∧
    List.Pairwise scoreGE (fuse vs ms q opts rs) ∧
    (fuse vs ms q opts rs).length ≤ opts.maxResults ∧
    ({} : RerankOptions).maxResults = 10 := by
  refine ⟨?_, ?_, ?_, fuse_pairwise vs ms q opts rs, ?_, rfl⟩
  · intro h
    unfold applyDiversity
    rw [if_pos h]
  · intro i hi hi'
    exact divGo_get_spec df results [] [] i hi hi'
  · intro i hi hi' hdf hsc
    rw [divGo_get_spec df results [] [] i hi hi']
    unfold divSpecAt
    have hpen := penaltyAt_nonneg df [] [] results i hi hdf
    exact max_le hsc (by linarith)
  · unfold fuse
    exact List.length_take_le _ _

def c4a : Candidate :=
  { docId := "a", vectorScore := 0, metadataScore := 0, metadataMatch := false,
    source := Source.vector, combinedScore := 4/5, title := "Same Case Title",
    text := "", metaTitle := "", metaCourt := "SC" }

def c4b : Candidate :=
  { docId := "b", vectorScore := 0, metadataScore := 0, metadataMatch := false,
    source := Source.vector, combinedScore := 3/5, title := "Same, Case: Title!!",
    text := "", metaTitle := "", metaCourt := "SC" }

/-- Witness for C4 at concrete inputs: an empty list passes through
unchanged, and in a two-candidate list whose normalized titles and courts
coincide the second candidate is mapped to the floored penalised score and
does not gain score. -/
theorem C4_theorem_witness :
    applyDiversity [] (1/10) = [] ∧
    (divGo (1/10) [c4a, c4b] [] []).get ⟨1, by with_unfolding_all decide⟩ =
      divSpecAt (1/10) [] [] [c4a, c4b] 1 (by with_unfolding_all decide) ∧
    ((divGo (1/10) [c4a, c4b] [] []).get ⟨1, by with_unfolding_all decide⟩).combinedScore ≤
      ([c4a, c4b].get ⟨1, by with_unfolding_all decide⟩).combinedScore := by
  have h1 := C4_theorem [] (1/10) [] [] "" {} []
  have h2 := C4_theorem [c4a, c4b] (1/10) [] [] "" {} []
  exact ⟨h1.1 (Or.inr (by decide)),
    h2.2.1 1 (by with_unfolding_all decide) (by with_unfolding_all decide),
    h2.2.2.1 1 (by with_unfolding_all decide) (by with_unfolding_all decide)
      (by norm_num) (by with_unfolding_all decide)⟩

/-! ### Claim C5 — provider rerank contract -/

theorem sortByScoreDesc_perm {α : Type} (l : List (α × ℚ)) :
    (sortByScoreDesc l).Perm l :=
  List.perm_insertionSort pairGE l

theorem openaiParseScores_length (parsed : Option (List (Option ℚ))) (expected : ℕ) :
    (openaiParseScores parsed expected).length = expected := by
  unfold openaiParseScores
  cases parsed with
  | none => simp
  | some raw =>
    by_cases h : (raw.filterMap id).length = expected
    · simp [h]
    · simp [h]

theorem openaiParseScores_bounds (parsed : Option (List (Option ℚ))) (expected : ℕ) :
    ∀ s ∈ openaiParseScores parsed expected, 0 ≤ s ∧ s ≤ 1 := by
  unfold openaiParseScores
  cases parsed with
  | none =>
    intro s hs
    rw [List.eq_of_mem_replicate hs]
    norm_num
  | some raw =>
    by_cases h : (raw.filterMap id).length = expected
    · simp only [h, if_true]
      intro s hs
      obtain ⟨x, _, rfl⟩ := List.mem_map.mp hs
      exact ⟨clamp01_nonneg x, clamp01_le_one x⟩
    · simp only [h, if_false]
      intro s hs
      rw [List.eq_of_mem_replicate hs]
      norm_num

theorem geminiFallback_length (numbers : Option (List ℚ)) (expected : ℕ) :
    (geminiFallback numbers expected).length = expected := by
  unfold geminiFallback
  cases numbers with
  | none => simp
  | some ns =>
    by_cases h : expected ≤ ns.length
    · simp [h, List.length_take, Nat.min_eq_left h]
    · simp [h]

theorem geminiFallback_bounds (numbers : Option (List ℚ)) (expected : ℕ) :
    ∀ s ∈ geminiFallback numbers expected, 0 ≤ s ∧ s ≤ 1 := by
  cases numbers with
  | none =>
    intro s hs
    simp only [geminiFallback] at hs
    rw [List.eq_of_mem_replicate hs]
    norm_num
  | some ns =>
    intro s hs
    simp only [geminiFallback] at hs
    by_cases h : expected ≤ ns.length
    · rw [if_pos h] at hs
      obtain ⟨x, _, rfl⟩ := List.mem_map.mp hs
      exact ⟨clamp01_nonneg x, clamp01_le_one x⟩
    · rw [if_neg h] at hs
      rw [List.eq_of_mem_replicate hs]
      norm_num

theorem geminiParseScores_length (bracket : Option (List (Option ℚ)))
    (numbers : Option (List ℚ)) (expected : ℕ) :
    (geminiParseScores bracket numbers expected).length = expected := by
  unfold geminiParseScores
  cases bracket with
  | none => exact geminiFallback_length numbers expected
  | some raw =>
    by_cases h : (raw.filterMap id).length = expected
    · simp [h]
    · simp only [h, if_false]
      exact geminiFallback_length numbers expected

theorem geminiParseScores_bounds (bracket : Option (List (Option ℚ)))
    (numbers : Option (List ℚ)) (expected : ℕ) :
    ∀ s ∈ geminiParseScores bracket numbers expected, 0 ≤ s ∧ s ≤ 1 := by
  unfold geminiParseScores
  cases bracket with
  | none => exact geminiFallback_bounds numbers expected
  | some raw =>
    by_cases h : (raw.filterMap id).length = expected
    · simp only [h, if_true]
      intro s hs
      obtain ⟨x, _, rfl⟩ := List.mem_map.mp hs
      exact ⟨clamp01_nonneg x, clamp01_le_one x⟩
    · simp only [h, if_false]
      exact geminiFallback_bounds numbers expected

theorem attachScore_bounds {α : Type} (p : α × ℚ) (h : 0 ≤ p.2 ∧ p.2 ≤ 1) :
    0 ≤ (attachScore p).2 ∧ (attachScore p).2 ≤ 1 := by
  unfold attachScore
  by_cases h0 : p.2 = 0
  · simp only [h0, if_pos rfl]
    norm_num
  · simp only [if_neg h0]
    exact h

theorem openaiRerank_length {α : Type} (docs : List α)
    (o : Except Unit (Option (List (Option ℚ)))) :
    (openaiRerank docs o).length = docs.length := by
  unfold openaiRerank
  by_cases hd : docs.isEmpty
  · rw [if_pos hd, List.isEmpty_iff.mp hd]
    rfl
  · rw [if_neg hd]
    cases o with
    | error e => simp
    | ok parsed =>
      rw [(sortByScoreDesc_perm _).length_eq, List.length_map, List.length_zip,
        openaiParseScores_length, Nat.min_self]

theorem openaiRerank_bounds {α : Type} (docs : List α)
    (o : Except Unit (Option (List (Option ℚ)))) :
    ∀ p ∈ openaiRerank docs o, 0 ≤ p.2 ∧ p.2 ≤ 1 := by
  unfold openaiRerank
  by_cases hd : docs.isEmpty
  · rw [if_pos hd]
    intro p hp
    cases hp
  · rw [if_neg hd]
    cases o with
    | error e =>
      intro p hp
      obtain ⟨d, _, rfl⟩ := List.mem_map.mp hp
      norm_num
    | ok parsed =>
      intro p hp
      have hp2 := (sortByScoreDesc_perm _).mem_iff.mp hp
      obtain ⟨q, hq, rfl⟩ := List.mem_map.mp hp2
      have hq2 := (List.mem_zip hq).2
      exact attachScore_bounds q (openaiParseScores_bounds parsed docs.length q.2 hq2)

theorem geminiRerank_length {α : Type} (docs : List α)
    (o : Except Unit (Option (List (Option ℚ)) × Option (List ℚ))) :
    (geminiRerank docs o).length = docs.length := by
  unfold geminiRerank
  by_cases hd : docs.isEmpty
  · rw [if_pos hd, List.isEmpty_iff.mp hd]
    rfl
  · rw [if_neg hd]
    cases o with
    | error e => simp
    | ok parsed =>
      rw [(sortByScoreDesc_perm _).length_eq, List.length_map, List.length_zip,
        geminiParseScores_length, Nat.min_self]

theorem geminiRerank_bounds {α : Type} (docs : List α)
    (o : Except Unit (Option (List (Option ℚ)) × Option (List ℚ))) :
    ∀ p ∈ geminiRerank docs o, 0 ≤ p.2 ∧ p.2 ≤ 1 := by
  unfold geminiRerank
  by_cases hd : docs.isEmpty
  · rw [if_pos hd]
    intro p hp
    cases hp
  · rw [if_neg hd]
    cases o with
    | error e =>
      intro p hp
      obtain ⟨d, _, rfl⟩ := List.mem_map.mp hp
      norm_num
    | ok parsed =>
      intro p hp
      have hp2 := (sortByScoreDesc_perm _).mem_iff.mp hp
      obtain ⟨q, hq, rfl⟩ := List.mem_map.mp hp2
      have hq2 := (List.mem_zip hq).2
      exact attachScore_bounds q (geminiParseScores_bounds parsed.1 parsed.2 docs.length q.2 hq2)

theorem cohereRerank_length {α : Type} (docs : List α)
    (o : Except Unit (List (ℕ × Option ℚ))) :
    (cohereRerank docs o).length = docs.length := by
  unfold cohereRerank
  by_cases hd : docs.isEmpty
  · rw [if_pos hd, List.isEmpty_iff.mp hd]
    rfl
  · rw [if_neg hd]
    cases o with
    | error e => simp
    | ok results =>
      rw [(sortByScoreDesc_perm _).length_eq, List.length_map, List.enum_length]

theorem cohereScoreFor_bounds (results : List (ℕ × Option ℚ)) (idx : ℕ)
    (h : ∀ r ∈ results, ∀ s, r.2 = some s → 0 ≤ s ∧ s ≤ 1) :
    0 ≤ cohereScoreFor results idx ∧ cohereScoreFor results idx ≤ 1 := by
  unfold cohereScoreFor
  cases hfind : results.find? (fun r => r.1 == idx) with
  | none => norm_num
  | some r =>
    obtain ⟨i, sOpt⟩ := r
    have hr := h (i, sOpt) (List.mem_of_find?_eq_some hfind)
    cases sOpt with
    | none =>
      show (0 : ℚ) ≤ 1/2 ∧ (1 : ℚ)/2 ≤ 1
      norm_num
    | some s =>
      have hs := hr s rfl
      show (0 : ℚ) ≤ (if s = 0 then 1/2 else s) ∧ (if s = 0 then (1 : ℚ)/2 else s) ≤ 1
      by_cases h0 : s = 0
      · simp [h0]
        norm_num
      · simp only [if_neg h0]
        exact hs

theorem cohereRerank_bounds {α : Type} (docs : List α)
    (o : Except Unit (List (ℕ × Option ℚ)))
    (h : ∀ res, o = Except.ok res → ∀ r ∈ res, ∀ s, r.2 = some s → 0 ≤ s ∧ s ≤ 1) :
    ∀ p ∈ cohereRerank docs o, 0 ≤ p.2 ∧ p.2 ≤ 1 := by
  unfold cohereRerank
  by_cases hd : docs.isEmpty
  · rw [if_pos hd]
    intro p hp
    cases hp
  · rw [if_neg hd]
    cases o with
    | error e =>
      intro p hp
      obtain ⟨d, _, rfl⟩ := List.mem_map.mp hp
      norm_num
    | ok results =>
      intro p hp
      have hp2 := (sortByScoreDesc_perm _).mem_iff.mp hp
      obtain ⟨q, _, rfl⟩ := List.mem_map.mp hp2
      exact cohereScoreFor_bounds results q.1 (h results rfl)

theorem openaiRerank_error {α : Type} (docs : List α) :
    openaiRerank docs (Except.error ()) = docs.map (fun d => (d, 1/2)) := by
  unfold openaiRerank
  by_cases hd : docs.isEmpty
  · rw [if_pos hd, List.isEmpty_iff.mp hd]
    rfl
  · rw [if_neg hd]

theorem geminiRerank_error {α : Type} (docs : List α) :
    geminiRerank docs (Except.error ()) = docs.map (fun d => (d, 1/2)) := by
  unfold geminiRerank
  by_cases hd : docs.isEmpty
  · rw [if_pos hd, List.isEmpty_iff.mp hd]
    rfl
  · rw [if_neg hd]

theorem cohereRerank_error {α : Type} (docs : List α) :
    cohereRerank docs (Except.error ()) = docs.map (fun d => (d, 1/2)) := by
  unfold cohereRerank
  by_cases hd : docs.isEmpty
  · rw [if_pos hd, List.isEmpty_iff.mp hd]
    rfl
  · rw [if_neg hd]

/-- Claim C5 is false as stated in one point: the Cohere provider attaches
`result?.relevance_score || 0.5` without clamping, so a well-formed response
carrying a relevance score outside [0,1] is passed straight through. -/
theorem C5_counterexample :
    cohereRerank ["d"] (Except.ok [(0, some 2)]) = [("d", (2 : ℚ))] ∧
    ¬ ((2 : ℚ) ≤ 1) := by
  with_unfolding_all decide

/-- Claim C5 (amended): every provider's `rerank` is total (all failure
branches are caught and produce values), returns exactly one output entry
per input document; for the OpenAI and Gemini providers every attached
score lies in [0,1] (their parsers clamp); for the Cohere provider the
scores lie in [0,1] provided the response's relevance scores do (the code
does not clamp them); and for all three providers an internal failure
(thrown fetch, rejected promise, non-ok HTTP status) produces the uniform
neutral score 0.5 for every document. -/
theorem C5_amended {α : Type} (docs : List α)
    (o1 : Except Unit (Option (List (Option ℚ))))
    (o2 : Except Unit (Option (List (Option ℚ)) × Option (List ℚ)))
    (o3 : Except Unit (List (ℕ × Option ℚ))) :
    ((openaiRerank docs o1).length = docs.length ∧
     (geminiRerank docs o2).length = docs.length ∧
     (cohereRerank docs o3).length = docs.length) ∧
    ((∀ p ∈ openaiRerank docs o1, 0 ≤ p.2 ∧ p.2 ≤ 1) ∧
     (∀ p ∈ geminiRerank docs o2, 0 ≤ p.2 ∧ p.2 ≤ 1)) ∧
    ((∀ res, o3 = Except.ok res → ∀ r ∈ res, ∀ s, r.2 = some s → 0 ≤ s ∧ s ≤ 1) →
      ∀ p ∈ cohereRerank docs o3, 0 ≤ p.2 ∧ p.2 ≤ 1) ∧
    (openaiRerank docs (Except.error ()) = docs.map (fun d => (d, 1/2)) ∧
     geminiRerank docs (Except.error ()) = docs.map (fun d => (d, 1/2)) ∧
     cohereRerank docs (Except.error ()) = docs.map (fun d => (d, 1/2))) :=
  ⟨⟨openaiRerank_length docs o1, geminiRerank_length docs o2, cohereRerank_length docs o3⟩,
   ⟨openaiRerank_bounds docs o1, geminiRerank_bounds docs o2⟩,
   fun h => cohereRerank_bounds docs o3 h,
   ⟨openaiRerank_error docs, geminiRerank_error docs, cohereRerank_error docs⟩⟩

/-- Witness for C5 (amended) at concrete inputs: one document, failed
OpenAI/Gemini calls, and a Cohere response with relevance score 0.7. -/
theorem C5_amended_witness :
    (openaiRerank ["a"] (Except.error ())).length = 1 ∧
    (0 : ℚ) ≤ ((("a", (1 : ℚ)/2)).2) ∧
    (0 : ℚ) ≤ ((("a", (7 : ℚ)/10)).2) ∧
    openaiRerank ["a"] (Except.error ()) = [("a", 1/2)] := by
  have h := C5_amended ["a"] (Except.error ()) (Except.error ())
    (Except.ok [(0, some (7/10))])
  refine ⟨h.1.1, ?_, ?_, h.2.2.2.1⟩
  · exact (h.2.1.1 ("a", 1/2) (by with_unfolding_all decide)).1
  · refine (h.2.2.1 ?_ ("a", 7/10) (by with_unfolding_all decide)).1
    rintro res hres r hr s hs
    cases hres
    simp only [List.mem_cons, List.not_mem_nil, or_false] at hr
    subst hr
    cases hs
    norm_num

/-! ### Claim C8 — batched reranking -/

theorem chunksGo_join {α : Type} (n : ℕ) (hn : 0 < n) :
    ∀ (fuel : ℕ) (l : List α), l.length ≤ fuel → (chunksGo n fuel l).flatten = l := by
  intro fuel
  induction fuel with
  | zero =>
    intro l hl
    rw [List.length_eq_zero.mp (Nat.le_zero.mp hl)]
    rfl
  | succ fuel ih =>
    intro l hl
    cases l with
    | nil => rfl
    | cons x rest =>
      show ((x :: rest).take n :: chunksGo n fuel ((x :: rest).drop n)).flatten = x :: rest
      rw [List.flatten_cons, ih ((x :: rest).drop n) ?_, List.take_append_drop]
      have : ((x :: rest).drop n).length = (x :: rest).length - n := List.length_drop n _
      rw [this]
      simp only [List.length_cons] at hl ⊢
      omega

theorem chunkList_join {α : Type} (n : ℕ) (hn : 0 < n) (l : List α) :
    (chunkList n l).flatten = l :=
  chunksGo_join n hn l.length l (le_refl _)

theorem openaiRerank_fst_perm {α : Type} (docs : List α)
    (o : Except Unit (Option (List (Option ℚ)))) :
    ((openaiRerank docs o).map Prod.fst).Perm docs := by
  unfold openaiRerank
  by_cases hd : docs.isEmpty
  · rw [if_pos hd, List.isEmpty_iff.mp hd]
    rfl
  · rw [if_neg hd]
    cases o with
    | error e =>
      rw [List.map_map]
      exact List.Perm.refl _ |>.trans (by rw [show (Prod.fst ∘ fun d => (d, (1 : ℚ)/2)) = id from rfl, List.map_id])
    | ok parsed =>
      refine ((sortByScoreDesc_perm _).map Prod.fst).trans ?_
      rw [List.map_map]
      have hfst : ((docs.zip (openaiParseScores parsed docs.length)).map
          (Prod.fst ∘ attachScore)) = (docs.zip (openaiParseScores parsed docs.length)).map Prod.fst := by
        congr 1
      rw [hfst, List.map_fst_zip]
      rw [openaiParseScores_length]

theorem geminiRerank_fst_perm {α : Type} (docs : List α)
    (o : Except Unit (Option (List (Option ℚ)) × Option (List ℚ))) :
    ((geminiRerank docs o).map Prod.fst).Perm docs := by
  unfold geminiRerank
  by_cases hd : docs.isEmpty
  · rw [if_pos hd, List.isEmpty_iff.mp hd]
    rfl
  · rw [if_neg hd]
    cases o with
    | error e =>
      rw [List.map_map]
      exact List.Perm.refl _ |>.trans (by rw [show (Prod.fst ∘ fun d => (d, (1 : ℚ)/2)) = id from rfl, List.map_id])
    | ok parsed =>
      refine ((sortByScoreDesc_perm _).map Prod.fst).trans ?_
      rw [List.map_map]
      have hfst : ((docs.zip (geminiParseScores parsed.1 parsed.2 docs.length)).map
          (Prod.fst ∘ attachScore)) =
          (docs.zip (geminiParseScores parsed.1 parsed.2 docs.length)).map Prod.fst := by
        congr 1
      rw [hfst, List.map_fst_zip]
      rw [geminiParseScores_length]

theorem cohereRerank_fst_perm {α : Type} (docs : List α)
    (o : Except Unit (List (ℕ × Option ℚ))) :
    ((cohereRerank docs o).map Prod.fst).Perm docs := by
  unfold cohereRerank
  by_cases hd : docs.isEmpty
  · rw [if_pos hd, List.isEmpty_iff.mp hd]
    rfl
  · rw [if_neg hd]
    cases o with
    | error e =>
      rw [List.map_map]
      exact List.Perm.refl _ |>.trans (by rw [show (Prod.fst ∘ fun d => (d, (1 : ℚ)/2)) = id from rfl, List.map_id])
    | ok results =>
      refine ((sortByScoreDesc_perm _).map Prod.fst).trans ?_
      rw [List.map_map]
      have : (Prod.fst ∘ fun p : ℕ × α => (p.2, cohereScoreFor results p.1)) =
          Prod.snd := rfl
      rw [this, List.enum_map_snd]

theorem bind_fst_perm {α β : Type} (ps : List (ℕ × List α))
    (f : ℕ × List α → List (α × β))
    (h : ∀ p ∈ ps, ((f p).map Prod.fst).Perm p.2) :
    ((ps.flatMap f).map Prod.fst).Perm (ps.flatMap Prod.snd) := by
  induction ps with
  | nil => rfl
  | cons p rest ih =>
    simp only [List.flatMap_cons, List.map_append]
    exact (h p (List.mem_cons_self p rest)).append
      (ih (fun q hq => h q (List.mem_cons_of_mem p hq)))

theorem enum_bind_snd {α : Type} (L : List (List α)) :
    L.enum.flatMap Prod.snd = L.flatten := by
  rw [List.flatMap_def, List.enum_map_snd]

/-- Claim C8 is false as stated: the per-chunk results are concatenated in
chunk order, but each chunk is sorted by its reranker score inside the
provider's `rerank`, so the original document order is not preserved.  Two
documents scored 0.1 and 0.9 in one OpenAI batch come back in the order
(b, a). -/
theorem C8_counterexample :
    openaiRerankBatch ["a", "b"]
        (fun _ => Except.ok (some [some (1/10), some (9/10)])) 10 =
      [("b", 9/10), ("a", 1/10)] ∧
    (["b", "a"] : List String) ≠ ["a", "b"] := by
  with_unfolding_all decide

/-- Claim C8 (amended): `rerankBatch` splits the documents into
provider-appropriate chunks (the source defaults are 100 for Cohere and 10
for OpenAI and Gemini), scores the chunks sequentially (with an inter-batch
delay that does not affect the computed value) and concatenates the
per-chunk results in chunk order.  The chunks partition the input in order
(their concatenation is the input); the concatenated output carries exactly
the input documents as a multiset (one output entry per input document);
and the original document order is preserved in the uniform-failure case
(every chunk scored 0.5) — but not in general, because each chunk is
re-sorted by score inside `rerank`. -/
theorem C8_amended {α : Type} (docs : List α) (n : ℕ) (hn : 0 < n)
    (o1 : ℕ → Except Unit (Option (List (Option ℚ))))
    (o2 : ℕ → Except Unit (Option (List (Option ℚ)) × Option (List ℚ)))
    (o3 : ℕ → Except Unit (List (ℕ × Option ℚ))) :
    ((chunkList n docs).join = docs) ∧
    (((openaiRerankBatch docs o1 n).map Prod.fst).Perm docs ∧
     ((geminiRerankBatch docs o2 n).map Prod.fst).Perm docs ∧
     ((cohereRerankBatch docs o3 n).map Prod.fst).Perm docs) ∧
    ((∀ i, o1 i = Except.error ()) →
      openaiRerankBatch docs o1 n = docs.map (fun d => (d, 1/2))) := by
  refine ⟨chunkList_join n hn docs, ⟨?_, ?_, ?_⟩, ?_⟩
  · refine (bind_fst_perm _ _ ?_).trans ?_
    · intro p _
      exact openaiRerank_fst_perm p.2 (o1 p.1)
    · rw [enum_bind_snd, chunkList_join n hn docs]
  · refine (bind_fst_perm _ _ ?_).trans ?_
    · intro p _
      exact geminiRerank_fst_perm p.2 (o2 p.1)
    · rw [enum_bind_snd, chunkList_join n hn docs]
  · refine (bind_fst_perm _ _ ?_).trans ?_
    · intro p _
      exact cohereRerank_fst_perm p.2 (o3 p.1)
    · rw [enum_bind_snd, chunkList_join n hn docs]
  · intro herr
    unfold openaiRerankBatch
    have hstep : ((chunkList n docs).enum.flatMap fun p => openaiRerank p.2 (o1 p.1)) =
        (chunkList n docs).enum.flatMap fun p => p.2.map (fun d => (d, (1 : ℚ)/2)) := by
      apply List.flatMap_congr
      intro p _
      rw [herr p.1]
      exact openaiRerank_error p.2
    rw [hstep]
    have hmap : ((chunkList n docs).enum.flatMap fun p => p.2.map (fun d => (d, (1 : ℚ)/2))) =
        ((chunkList n docs).enum.flatMap Prod.snd).map (fun d => (d, (1 : ℚ)/2)) := by
      induction (chunkList n docs).enum with
      | nil => rfl
      | cons p rest ih =>
        rw [List.flatMap_cons, List.flatMap_cons, ih, List.map_append]
    rw [hmap, enum_bind_snd, chunkList_join n hn docs]

/-- Witness for C8 (amended) at concrete inputs: chunking two documents
with batch size 10 partitions them in order, and uniformly failing calls
return them annotated 0.5 in the original order. -/
theorem C8_amended_witness :
    (chunkList 10 ["a", "b"]).join = ["a", "b"] ∧
    openaiRerankBatch ["a", "b"] (fun _ => Except.error ()) 10 =
      [("a", 1/2), ("b", 1/2)] := by
  have h := C8_amended ["a", "b"] 10 (by norm_num)
    (fun _ => Except.error ())
    (fun _ => Except.error ())
    (fun _ => Except.error ())
  refine ⟨h.1, (h.2.2 (fun _ => rfl)).trans ?_⟩
  rfl

/-! ### Claim C10 — falsy-or defaulting never yields a zero score -/

theorem hostedScoreFor_ne_zero (rs : List (String × ℚ)) (k : String) :
    hostedScoreFor rs k ≠ 0 := by
  unfold hostedScoreFor
  cases hfind : (rs.find? (fun p => p.1 == k)).map Prod.snd with
  | none => norm_num
  | some s =>
    by_cases h0 : s = 0
    · simp only [h0, if_pos rfl]
      norm_num
    · simp only [if_neg h0]
      exact h0

theorem attachScore_ne_zero {α : Type} (p : α × ℚ) : (attachScore p).2 ≠ 0 := by
  unfold attachScore
  by_cases h0 : p.2 = 0
  · simp only [h0, if_pos rfl]
    norm_num
  · simp only [if_neg h0]
    exact h0

theorem cohereScoreFor_ne_zero (results : List (ℕ × Option ℚ)) (idx : ℕ) :
    cohereScoreFor results idx ≠ 0 := by
  unfold cohereScoreFor
  cases hfind : results.find? (fun r => r.1 == idx) with
  | none => norm_num
  | some r =>
    obtain ⟨i, sOpt⟩ := r
    cases sOpt with
    | none =>
      show (1 : ℚ)/2 ≠ 0
      norm_num
    | some s =>
      show (if s = 0 then (1 : ℚ)/2 else s) ≠ 0
      by_cases h0 : s = 0
      · rw [if_pos h0]
        norm_num
      · rw [if_neg h0]
        exact h0

theorem divGo_mem_hosted (df : ℚ) :
    ∀ (l : List Candidate) (seenT seenC : List String) (c : Candidate),
      c ∈ divGo df l seenT seenC →
      ∃ c0 ∈ l, c.hostedRerankerScore = c0.hostedRerankerScore := by
  intro l
  induction l with
  | nil => intro seenT seenC c hc; cases hc
  | cons r rest ih =>
    intro seenT seenC c hc
    rcases List.mem_cons.mp hc with hc | hc
    · exact ⟨r, List.mem_cons_self r rest, by rw [hc]⟩
    · obtain ⟨c0, hc0, he⟩ := ih _ _ c hc
      exact ⟨c0, List.mem_cons_of_mem r hc0, he⟩

theorem fuse_mem_hosted (vs : List VectorResult) (ms : List MetaRecord)
    (q : String) (opts : RerankOptions) (rs : List (String × ℚ)) :
    ∀ c ∈ fuse vs ms q opts rs, ∃ k, c.hostedRerankerScore = hostedScoreFor rs k := by
  intro c hc
  have hc1 : c ∈ applyDiversity
      (sortByCombinedDesc ((documentMap vs ms q).map
        (scoreCandidate opts rs vs.length ms.length))) opts.diversityFactor :=
    List.take_subset _ _ hc
  have hsorted : ∀ c', c' ∈ sortByCombinedDesc ((documentMap vs ms q).map
      (scoreCandidate opts rs vs.length ms.length)) →
      ∃ k, c'.hostedRerankerScore = hostedScoreFor rs k := by
    intro c' hc'
    rw [sortByCombinedDesc, List.mem_insertionSort, List.mem_map] at hc'
    obtain ⟨p, _, rfl⟩ := hc'
    exact ⟨p.1, rfl⟩
  unfold applyDiversity at hc1
  split at hc1
  · exact hsorted c hc1
  · rw [sortByCombinedDesc, List.mem_insertionSort] at hc1
    obtain ⟨c0, hc0, he⟩ := divGo_mem_hosted opts.diversityFactor _ [] [] c hc1
    obtain ⟨k, hk⟩ := hsorted c0 hc0
    exact ⟨k, he.trans hk⟩

/-- Claim C10: the falsy-or expressions `scores[idx] || 0.5` (OpenAI,
Gemini), `relevance_score || 0.5` (Cohere) and
`rerankerScores.get(docId) || 0.5` (fusion) replace a score of exactly 0 by
the neutral 0.5, so no document returned by any provider's `rerank` and no
candidate scored during fusion ever carries a reranker score of exactly 0. -/
theorem C10_theorem {α : Type} (docs : List α)
    (o1 : Except Unit (Option (List (Option ℚ))))
    (o2 : Except Unit (Option (List (Option ℚ)) × Option (List ℚ)))
    (o3 : Except Unit (List (ℕ × Option ℚ)))
    (vs : List VectorResult) (ms : List MetaRecord) (q : String)
    (opts : RerankOptions) (rs : List (String × ℚ)) :
    (∀ p ∈ openaiRerank docs o1, p.2 ≠ 0) ∧
    (∀ p ∈ geminiRerank docs o2, p.2 ≠ 0) ∧
    (∀ p ∈ cohereRerank docs o3, p.2 ≠ 0) ∧
    (∀ c ∈ fuse vs ms q opts rs, c.hostedRerankerScore ≠ 0) := by
  refine ⟨?_, ?_, ?_, ?_⟩
  · unfold openaiRerank
    by_cases hd : docs.isEmpty
    · rw [if_pos hd]
      intro p hp
      cases hp
    · rw [if_neg hd]
      cases o1 with
      | error e =>
        intro p hp
        obtain ⟨d, _, rfl⟩ := List.mem_map.mp hp
        norm_num
      | ok parsed =>
        intro p hp
        have hp2 := (sortByScoreDesc_perm _).mem_iff.mp hp
        obtain ⟨q', _, rfl⟩ := List.mem_map.mp hp2
        exact attachScore_ne_zero q'
  · unfold geminiRerank
    by_cases hd : docs.isEmpty
    · rw [if_pos hd]
      intro p hp
      cases hp
    · rw [if_neg hd]
      cases o2 with
      | error e =>
        intro p hp
        obtain ⟨d, _, rfl⟩ := List.mem_map.mp hp
        norm_num
      | ok parsed =>
        intro p hp
        have hp2 := (sortByScoreDesc_perm _).mem_iff.mp hp
        obtain ⟨q', _, rfl⟩ := List.mem_map.mp hp2
        exact attachScore_ne_zero q'
  · unfold cohereRerank
    by_cases hd : docs.isEmpty
    · rw [if_pos hd]
      intro p hp
      cases hp
    · rw [if_neg hd]
      cases o3 with
      | error e =>
        intro p hp
        obtain ⟨d, _, rfl⟩ := List.mem_map.mp hp
        norm_num
      | ok results =>
        intro p hp
        have hp2 := (sortByScoreDesc_perm _).mem_iff.mp hp
        obtain ⟨q', _, rfl⟩ := List.mem_map.mp hp2
        exact cohereScoreFor_ne_zero results q'.1
  · intro c hc
    obtain ⟨k, hk⟩ := fuse_mem_hosted vs ms q opts rs c hc
    rw [hk]
    exact hostedScoreFor_ne_zero rs k

/-- Witness for C10 at concrete inputs: a failed provider call attaches 0.5
(not 0), and the single fused candidate of a no-provider fusion carries
hosted score 0.5 (not 0). -/
theorem C10_theorem_witness :
    ((("a" : String), (1 : ℚ)/2)).2 ≠ 0 ∧
    (fuse [{ id := "d1", score := 1 }] [] "" {} [("d1", 0)]).headI.hostedRerankerScore ≠ 0 := by
  have h := C10_theorem ["a"] (Except.error ()) (Except.error ()) (Except.error ())
    [{ id := "d1", score := 1 }] [] "" {} [("d1", 0)]
  exact ⟨h.1 ("a", 1/2) (by with_unfolding_all decide),
    h.2.2.2 _ (by with_unfolding_all decide)⟩

/-! ### Claim C6 — RerankerService degradation -/

/-- The misconfiguration conditions of the claim: reranking disabled, an
unknown (or unset) provider selector, or a provider selected with its
API key missing. -/
def misconfigured (env : RerankerEnv) : Prop :=
  env.RERANKER_ENABLED ≠ some "true" ∨
  (∀ s, env.RERANKER_PROVIDER.map lowerStr = some s →
    s ∉ (["gemini", "cohere", "openai"] : List String)) ∨
  (env.RERANKER_PROVIDER.map lowerStr = some "gemini" ∧
    jsOr env.RERANKER_API_KEY env.GEMINI_API_KEY = none) ∨
  (env.RERANKER_PROVIDER.map lowerStr = some "cohere" ∧
    truthyStr env.RERANKER_API_KEY = none) ∨
  (env.RERANKER_PROVIDER.map lowerStr = some "openai" ∧
    jsOr env.RERANKER_API_KEY env.OPEN_AI_KEY = none)

theorem initProvider_eq_none (env : RerankerEnv) (h : misconfigured env) :
    initProvider env = none := by
  unfold initProvider
  by_cases henb : env.RERANKER_ENABLED ≠ some "true"
  · rw [if_pos henb]
  · rw [if_neg henb]
    rcases h with h1 | h2 | h3 | h4 | h5
    · exact absurd h1 henb
    · split <;> first
        | rfl
        | (rename_i heq; exact absurd (h2 _ heq) (by simp))
    · rw [h3.1, h3.2]
      rfl
    · rw [h4.1, h4.2]
      rfl
    · rw [h5.1, h5.2]
      rfl

/-- Claim C6: under any of the misconfiguration conditions the provider is
left unset, `isAvailable` reports false, `rerank` and `rerankBatch` return
the input documents annotated with exactly 0.5 instead of failing, and with
no provider configured (empty hosted-score map) every fused candidate's
hosted reranker score is exactly 0.5. -/
theorem C6_theorem {α : Type} (env : RerankerEnv) (docs : List α)
    (run runB : ProviderConfig → List α → Except Unit (List (α × ℚ)))
    (vs : List VectorResult) (ms : List MetaRecord) (q : String)
    (opts : RerankOptions) (h : misconfigured env) :
    initProvider env = none ∧
    isAvailable env = false ∧
    serviceRerank env run docs = docs.map (fun d => (d, 1/2)) ∧
    serviceRerankBatch env runB docs = docs.map (fun d => (d, 1/2)) ∧
    (∀ c ∈ fuse vs ms q opts [], c.hostedRerankerScore = 1/2) := by
  have hinit := initProvider_eq_none env h
  refine ⟨hinit, ?_, ?_, ?_, ?_⟩
  · unfold isAvailable
    rw [hinit]
    rfl
  · unfold serviceRerank
    rw [hinit]
  · unfold serviceRerankBatch
    rw [hinit]
  · intro c hc
    obtain ⟨k, hk⟩ := fuse_mem_hosted vs ms q opts [] c hc
    rw [hk]
    rfl

/-- A concretely misconfigured environment: reranking enabled but the
provider selector names an unknown provider. -/
def c6Env : RerankerEnv :=
  { RERANKER_ENABLED := some "true", RERANKER_PROVIDER := some "tfidf" }

/-- Witness for C6 at the concrete misconfigured environment. -/
theorem C6_theorem_witness :
    initProvider c6Env = none ∧
    serviceRerank c6Env
      (fun _ docs => Except.ok (docs.map (fun d => (d, 1)))) ["a"] = [("a", 1/2)] := by
  have hmis : misconfigured c6Env := by
    refine Or.inr (Or.inl ?_)
    intro s hs
    rw [show ((c6Env.RERANKER_PROVIDER).map lowerStr) = some (lowerStr "tfidf") from rfl] at hs
    cases hs
    with_unfolding_all decide
  have h := C6_theorem c6Env ["a"]
    (fun _ docs => Except.ok (docs.map (fun d => (d, 1))))
    (fun _ docs => Except.ok (docs.map (fun d => (d, 1))))
    [] [] "" {} hmis
  exact ⟨h.1, h.2.2.1⟩

/-! ### Claim C7 — search orchestrator error handling -/

theorem fuse_nil (q : String) (opts : RerankOptions) (rs : List (String × ℚ)) :
    fuse [] [] q opts rs = [] := by
  show (applyDiversity (sortByCombinedDesc []) opts.diversityFactor).take opts.maxResults = []
  simp [applyDiversity, sortByCombinedDesc, List.insertionSort]

theorem performVectorSearch_error_eq_empty (inp : SearchInputs) :
    performVectorSearch { inp with vectorOutcome := Except.error () } =
      performVectorSearch { inp with vectorOutcome := Except.ok (some []) } := by
  unfold performVectorSearch
  cases inp.vectorAvailable <;> rfl

/-- Claim C7: the public `search` entry point never propagates a source
failure — a throwing/rejected vector or metadata client is equivalent to
that source returning no results, an absent vector client likewise, the
other branch is unaffected, and when both sources fail the result is the
empty list (a valid "no results" outcome, not an error).  The embedding is
a total function: every catch block in the orchestrator maps a failure to
an empty list, so no exception can reach the caller; the code performs no
synchronous input validation at all, hence rejects nothing. -/
theorem C7_theorem (inp : SearchInputs) :
    (search { inp with vectorOutcome := Except.error () } =
      search { inp with vectorOutcome := Except.ok (some []) }) ∧
    (search { inp with vectorAvailable := false } =
      search { inp with vectorAvailable := true, vectorOutcome := Except.ok (some []) }) ∧
    (search { inp with metadataOutcome := Except.error () } =
      search { inp with metadataOutcome := Except.ok [] }) ∧
    (search { inp with vectorOutcome := Except.error (), metadataOutcome := Except.error () } = []) := by
  obtain ⟨q, topN, filters, avail, vo, mo, rs, store⟩ := inp
  refine ⟨?_, ?_, ?_, ?_⟩
  · cases avail <;> rfl
  · rfl
  · unfold search performMetadataSearch
    simp only [ite_self]
    rfl
  · unfold search performMetadataSearch
    cases avail <;> simp [performVectorSearch, ite_self, fuse_nil, enrichResults]

/-! ### Claim C9 — query filter extraction -/

theorem findSome?_first {β : Type} (q : List Char) :
    ∀ (fs : List (List Char → Option β)) (i : ℕ) (hi : i < fs.length),
      (fs.get ⟨i, hi⟩) q ≠ none →
      (∀ (j : ℕ) (hj : j < i), (fs.get ⟨j, Nat.lt_trans hj hi⟩) q = none) →
      fs.findSome? (fun f => f q) = (fs.get ⟨i, hi⟩) q := by
  intro fs
  induction fs with
  | nil => intro i hi; cases hi
  | cons f rest ih =>
    intro i hi hne hprev
    cases i with
    | zero =>
      cases hf : f q with
      | some b => simp [List.findSome?_cons, hf]
      | none => exact absurd hf hne
    | succ j =>
      have hf : f q = none := hprev 0 (Nat.succ_pos j)
      rw [List.findSome?_cons, hf]
      exact ih j (Nat.lt_of_succ_lt_succ hi) hne
        (fun j' hj' => hprev (j' + 1) (Nat.succ_lt_succ hj'))

theorem findSomeTest_first {β : Type} (q : List Char) :
    ∀ (ps : List ((List Char → Bool) × β)) (i : ℕ) (hi : i < ps.length),
      (ps.get ⟨i, hi⟩).1 q = true →
      (∀ (j : ℕ) (hj : j < i), (ps.get ⟨j, Nat.lt_trans hj hi⟩).1 q = false) →
      ps.findSome? (fun p => if p.1 q then some p.2 else none) =
        some (ps.get ⟨i, hi⟩).2 := by
  intro ps
  induction ps with
  | nil => intro i hi; cases hi
  | cons p rest ih =>
    intro i hi ht hprev
    cases i with
    | zero =>
      have ht2 : p.1 q = true := ht
      show List.findSome? (fun p => if p.1 q then some p.2 else none) (p :: rest) = some p.2
      rw [List.findSome?_cons, if_pos ht2]
    | succ j =>
      have hf : p.1 q = false := hprev 0 (Nat.succ_pos j)
      rw [List.findSome?_cons]
      simp only [hf, Bool.false_eq_true, if_false]
      exact ih j (Nat.lt_of_succ_lt_succ hi) ht
        (fun j' hj' => hprev (j' + 1) (Nat.succ_lt_succ hj'))

/-- Claim C9 is false as stated in the cleanup step: the code removes the
canonical filter *values* (the year digits, the court value, the case-type
value), not the matched substrings.  Query "supreme court bail matters"
matches `/supreme court/i` (value "Supreme Court of India") and `/bail/i`
(value "Bail Application"); neither value occurs in the query, so nothing
is removed and the emitted fulltext residual still contains the matched
substrings "supreme court" and "bail". -/
theorem C9_counterexample :
    (extractFiltersFromQuery "supreme court bail matters").court =
      some "Supreme Court of India" ∧
    (extractFiltersFromQuery "supreme court bail matters").case_type =
      some "Bail Application" ∧
    (extractFiltersFromQuery "supreme court bail matters").fulltext =
      some "supreme court bail matters" ∧
    infB "supreme court".toList "supreme court bail matters".toList = true ∧
    infB "bail".toList "supreme court bail matters".toList = true := by
  with_unfolding_all decide

/-- Claim C9 (amended): `extractFiltersFromQuery` is a pure function (the
embedding is a Lean function, hence deterministic and side-effect-free);
within the court and case-type categories the first matching pattern rule
wins and short-circuits the remaining rules; a category in which no rule
matches is omitted from the output (shown for court, case type and
jurisdiction); and the trimmed remainder of the *value-removal* cleanup —
which removes the first occurrence of the year's digits and every
case-insensitive occurrence of the court and case-type values, not the
matched substrings — is emitted as the fulltext filter exactly when its
length exceeds 5 characters. -/
theorem C9_amended (q : String) :
    ((∀ (i : ℕ) (hi : i < courtMatchers.length),
        (courtMatchers.get ⟨i, hi⟩) q.toList ≠ none →
        (∀ (j : ℕ) (hj : j < i), (courtMatchers.get ⟨j, Nat.lt_trans hj hi⟩) q.toList = none) →
        (extractFiltersFromQuery q).court = (courtMatchers.get ⟨i, hi⟩) q.toList) ∧
     (∀ (i : ℕ) (hi : i < caseTypeMatchers.length),
        (caseTypeMatchers.get ⟨i, hi⟩).1 q.toList = true →
        (∀ (j : ℕ) (hj : j < i), (caseTypeMatchers.get ⟨j, Nat.lt_trans hj hi⟩).1 q.toList = false) →
        (extractFiltersFromQuery q).case_type = some (caseTypeMatchers.get ⟨i, hi⟩).2)) ∧
    ((∀ f ∈ courtMatchers, f q.toList = none) →
      (extractFiltersFromQuery q).court = none) ∧
    ((∀ p ∈ caseTypeMatchers, p.1 q.toList = false) →
      (extractFiltersFromQuery q).case_type = none) ∧
    (infB "criminal".toList (lowerChars q.toList) = false →
      infB "civil".toList (lowerChars q.toList) = false →
      (extractFiltersFromQuery q).jurisdiction = none) ∧
    (∀ s, (extractFiltersFromQuery q).fulltext = some s ↔
      (s = String.mk (cleanedOf q.toList (yearOf q.toList) (courtOf q.toList) (caseTypeOf q.toList)) ∧
       5 < (cleanedOf q.toList (yearOf q.toList) (courtOf q.toList) (caseTypeOf q.toList)).length)) := by
  have hcourt : (extractFiltersFromQuery q).court = courtOf q.toList := rfl
  have hct : (extractFiltersFromQuery q).case_type = caseTypeOf q.toList := rfl
  have hjur : (extractFiltersFromQuery q).jurisdiction = jurisdictionOf q.toList := rfl
  have hft : (extractFiltersFromQuery q).fulltext =
      (if 5 < (cleanedOf q.toList (yearOf q.toList) (courtOf q.toList) (caseTypeOf q.toList)).length
       then some (String.mk (cleanedOf q.toList (yearOf q.toList) (courtOf q.toList) (caseTypeOf q.toList)))
       else none) := rfl
  refine ⟨⟨?_, ?_⟩, ?_, ?_, ?_, ?_⟩
  · intro i hi hne hprev
    rw [hcourt]
    exact findSome?_first q.toList courtMatchers i hi hne hprev
  · intro i hi ht hprev
    rw [hct]
    exact findSomeTest_first q.toList caseTypeMatchers i hi ht hprev
  · intro hall
    rw [hcourt]
    exact List.findSome?_eq_none.mpr hall
  · intro hall
    rw [hct]
    apply List.findSome?_eq_none.mpr
    intro p hp
    rw [hall p hp]
    rfl
  · intro h1 h2
    rw [hjur]
    unfold jurisdictionOf
    rw [if_neg (by rw [h1]; simp), if_neg (by rw [h2]; simp)]
  · intro s
    rw [hft]
    by_cases hlen : 5 < (cleanedOf q.toList (yearOf q.toList) (courtOf q.toList) (caseTypeOf q.toList)).length
    · rw [if_pos hlen]
      constructor
      · intro hs
        cases hs
        exact ⟨rfl, hlen⟩
      · rintro ⟨rfl, _⟩
        rfl
    · rw [if_neg hlen]
      constructor
      · intro hs
        cases hs
      · rintro ⟨_, hl⟩
        exact absurd hl hlen

/-- Witness for C9 (amended) at a concrete query: "bombay high court appeal"
matches the fourth court pattern and none of the earlier three, so the
extracted court is "High Court of Bombay"; it matches no case-type pattern
before the bail rule and no jurisdiction keyword. -/
theorem C9_amended_witness :
    (extractFiltersFromQuery "bombay high court appeal").court =
      some "High Court of Bombay" ∧
    (extractFiltersFromQuery "bombay high court appeal").jurisdiction = none := by
  have h := C9_amended "bombay high court appeal"
  constructor
  · have hres := h.1.1 3 (by with_unfolding_all decide)
      (by with_unfolding_all decide)
      (by with_unfolding_all decide)
    rw [hres]
    with_unfolding_all decide
  · exact h.2.2.2.1 (by with_unfolding_all decide) (by with_unfolding_all decide)

end ParalegalSearch
